import Mathlib

/-!
Verification of the faculty-salary parsing pipeline
(src/parse_salaries_pdf.py) via a shallow embedding.

Text is modelled as List Char.  The three parsing stages of
parse_salaries_data (normalizer, block splitter, field extractor) and the
dataframe stage make_pd_dataframe are translated definition by definition
from the Python source; pandas operations are modelled on an explicit
Frame type (column-name list plus rows).
-/

set_option maxRecDepth 4000
set_option maxHeartbeats 1000000

/-! ## Python character classes -/

/-- Python regex whitespace class (ASCII part), also used by str.strip(). -/
def isWS (c : Char) : Bool :=
  c = ' ' || c = '\t' || c = '\n' || c = '\r' || c = '\x0b' || c = '\x0c'

/-- Line-break characters recognized by Python str.splitlines(). -/
def isLB (c : Char) : Bool :=
  c = '\n' || c = '\r' || c = '\x0b' || c = '\x0c' || c = '\x1c' ||
  c = '\x1d' || c = '\x1e' || c = '\x85' || c = '\u2028' || c = '\u2029'

/-- Python str.strip(): remove leading and trailing whitespace. -/
def pyStrip (cs : List Char) : List Char :=
  ((cs.dropWhile isWS).reverse.dropWhile isWS).reverse

/-- Python str.splitlines(): split at line breaks, treating CR LF as one
break; no trailing empty line for a trailing break; empty text gives no
lines. -/
def pyLines : List Char → List (List Char)
  | [] => []
  | '\r' :: '\n' :: rest => [] :: pyLines rest
  | c :: rest =>
    if isLB c then
      [] :: pyLines rest
    else
      match pyLines rest with
      | [] => [[c]]
      | l :: ls => (c :: l) :: ls

/-- Python "\n".join(lines). -/
def joinNl : List (List Char) → List Char
  | [] => []
  | [l] => l
  | l :: ls => l ++ '\n' :: joinNl ls

/-- The boilerplate marker removed by the normalizer (substring match). -/
def boilerplateMarker : List Char := "Unclassified Personnel List".toList

/-- The line filter of parse_salaries_data:
line.strip() and "Unclassified Personnel List" not in line. -/
def keepLine (l : List Char) : Bool :=
  decide (pyStrip l ≠ [] ∧ ¬ boilerplateMarker <:+: l)

/-- The Text Normalizer (lines 38-44 of the source): keep non-blank,
non-boilerplate lines and rejoin with newlines. -/
def cleanText (s : List Char) : List Char :=
  joinNl ((pyLines s).filter keepLine)

/-! ## Block Splitter: re.split of the pattern "-{80,}"

A maximal run of 80 or more dashes is one (greedy) delimiter match; the
scan below carries the reversed content of the current block (acc) and the
length of the pending dash run (d). -/

def splitDashesGo : List Char → List Char → Nat → List (List Char)
  | [], acc, d =>
    if 80 ≤ d then [acc.reverse, []] else [acc.reverse ++ List.replicate d '-']
  | c :: cs, acc, d =>
    if c = '-' then
      splitDashesGo cs acc (d + 1)
    else if 80 ≤ d then
      acc.reverse :: splitDashesGo cs [c] 0
    else
      splitDashesGo cs (c :: (List.replicate d '-' ++ acc)) 0

/-- re.split(r"-\x7b80,\x7d", s): the employee_blocks of line 45. -/
def splitDashes (s : List Char) : List (List Char) :=
  splitDashesGo s [] 0

/-- Lengths of the maximal dash runs of length at least 80, in order. -/
def sepRunsGo : List Char → Nat → List Nat
  | [], d => if 80 ≤ d then [d] else []
  | c :: cs, d =>
    if c = '-' then
      sepRunsGo cs (d + 1)
    else if 80 ≤ d then
      d :: sepRunsGo cs 0
    else
      sepRunsGo cs 0

/-- The separator runs (maximal runs of 80 or more dashes) of a text. -/
def sepRuns (s : List Char) : List Nat :=
  sepRunsGo s 0

/-- Interleave blocks with dash runs of the given lengths. -/
def joinBlocks : List (List Char) → List Nat → List Char
  | [], _ => []
  | b :: _, [] => b
  | b :: bs, n :: ns => b ++ List.replicate n '-' ++ joinBlocks bs ns

/-! ## Field Extractor: the regex engine

Every pattern of parse_employee_block has the shape
  LITERAL  optional-\s+  lazy-dot-capture  TERMINATOR
searched with re.DOTALL (so the capture dot also matches newline).  The
terminator is either \s followed by at least one more \s, or \n. -/

inductive Term where
  | ws2 : Term
  | nl : Term
deriving DecidableEq, Repr

structure Pat where
  lit : List Char
  wsPlus : Bool
  term : Term

/-- Does the terminator match at the start of the remaining text? -/
def matchTerm : Term → List Char → Bool
  | .ws2, a :: b :: _ => isWS a && isWS b
  | .ws2, _ => false
  | .nl, a :: _ => a = '\n'
  | .nl, [] => false

/-- The lazy capture "(.+?)" followed by the terminator: the shortest
nonempty prefix after which the terminator matches (any character,
including newline, may be captured: re.DOTALL). -/
def lazyCap (t : Term) : List Char → Option (List Char)
  | [] => none
  | c :: rest =>
    if matchTerm t rest then some [c] else (lazyCap t rest).map (c :: ·)

/-- Length of the leading whitespace run. -/
def wsCount : List Char → Nat
  | [] => 0
  | c :: rest => if isWS c then wsCount rest + 1 else 0

/-- Greedy "\s+" with backtracking: try consuming w whitespace characters
for w from the maximal run length down to 1, then the lazy capture. -/
def tryWsBack (t : Term) (cs : List Char) : Nat → Option (List Char)
  | 0 => none
  | w + 1 =>
    match lazyCap t (cs.drop (w + 1)) with
    | some v => some v
    | none => tryWsBack t cs w

/-- Match everything after the literal at a fixed start position. -/
def matchAfterLit (p : Pat) (cs : List Char) : Option (List Char) :=
  if p.wsPlus then tryWsBack p.term cs (wsCount cs) else lazyCap p.term cs

/-- re.search: try each start position from the left; at the first
position where the whole pattern matches, return the captured group. -/
def searchGo (p : Pat) : List Char → Option (List Char)
  | [] => none
  | c :: rest =>
    match (if p.lit.isPrefixOf (c :: rest)
           then matchAfterLit p ((c :: rest).drop p.lit.length)
           else none) with
    | some v => some v
    | none => searchGo p rest

/-- re.search(pattern, block, re.DOTALL) restricted to the pattern shapes
of parse_employee_block, returning group(1). -/
def reSearch (p : Pat) (b : List Char) : Option (List Char) :=
  searchGo p b

/-- The attempt of the pattern at one fixed start position i. -/
def matchesAt (p : Pat) (b : List Char) (i : Nat) : Option (List Char) :=
  if p.lit.isPrefixOf (b.drop i)
  then matchAfterLit p ((b.drop i).drop p.lit.length)
  else none

/-! ## The thirteen fields and their patterns (source lines 61-75) -/

inductive FieldId where
  | name | department | job_department | job_type | job_title | job_rank
  | annual_salary | first_hired_date | adj_service_date | rank_start_date
  | appt_start_date | appt_end_date | appt_percent
deriving DecidableEq, Repr

def fieldPat : FieldId → Pat
  | .name => ⟨"Name: ".toList, false, .ws2⟩
  | .department => ⟨"Home Orgn: ".toList, false, .ws2⟩
  | .job_department => ⟨"Job Orgn: ".toList, false, .ws2⟩
  | .job_type => ⟨"Job Type: ".toList, false, .nl⟩
  | .job_title => ⟨"Job Title: ".toList, false, .ws2⟩
  | .job_rank => ⟨"Rank: ".toList, false, .ws2⟩
  | .annual_salary => ⟨"Annual Salary Rate:".toList, true, .ws2⟩
  | .first_hired_date => ⟨"First Hired: ".toList, false, .nl⟩
  | .adj_service_date => ⟨"Adj Service Date: ".toList, false, .nl⟩
  | .rank_start_date => ⟨"Rank Effective Date: ".toList, false, .nl⟩
  | .appt_start_date => ⟨"Appt Begin Date: ".toList, false, .ws2⟩
  | .appt_end_date => ⟨"Appt End Date: ".toList, false, .ws2⟩
  | .appt_percent => ⟨"Appt Percent: ".toList, false, .nl⟩

/-- The thirteen fields in source (dict) order. -/
def fieldList : List FieldId :=
  [.name, .department, .job_department, .job_type, .job_title, .job_rank,
   .annual_salary, .first_hired_date, .adj_service_date, .rank_start_date,
   .appt_start_date, .appt_end_date, .appt_percent]

/-- An EmployeeRecord: every field key maps to an optional string. -/
abbrev EmpRecord : Type := FieldId → Option (List Char)

/-- parse_employee_block (source lines 50-82): for each field, search the
block with the field's pattern and strip the captured group; a failed
search records the field as absent. -/
def parse_employee_block (block : List Char) : EmpRecord :=
  fun f => (reSearch (fieldPat f) block).map pyStrip

/-- parse_salaries_data on already-extracted text (source lines 38-47). -/
def parse_salaries_data (s : List Char) : List EmpRecord :=
  (splitDashes (cleanText s)).map parse_employee_block

/-! ## Python str.split with a literal separator (pandas Series.str.split)

Fuel-driven so that the definition is structurally recursive; the fuel is
always instantiated with the length of the string, which suffices. -/

def pySplitF (sep : List Char) : Nat → List Char → List (List Char)
  | _, [] => [[]]
  | 0, s => [s]
  | fuel + 1, c :: rest =>
    if sep.isPrefixOf (c :: rest) then
      [] :: pySplitF sep fuel (List.drop (sep.length - 1) rest)
    else
      match pySplitF sep fuel rest with
      | [] => [[c]]
      | b :: bs => (c :: b) :: bs

def pySplit (sep s : List Char) : List (List Char) :=
  pySplitF sep s.length s

/-- The derived first name of source lines 133-135:
name.str.split(", ").str[1].str.split(" ").str[0] (absent when the name
has fewer than two ", "-separated parts). -/
def deriveFirstName (s : List Char) : Option (List Char) :=
  match (pySplit ", ".toList s).get? 1 with
  | none => none
  | some r => some ((pySplit " ".toList r).headD [])

/-- Python str.upper() (ASCII). -/
def pyUpper (s : List Char) : List Char := s.map Char.toUpper

/-! ## Python float() and strptime("%d-%b-%Y") value parsers -/

/-- A parsed Python float, kept in exact decimal form: fin m e denotes
m times 10 to the power e. -/
inductive PyFloat where
  | fin : Int → Int → PyFloat
  | pinf | ninf | nan
deriving DecidableEq, Repr

def digitsToNat (ds : List Char) : Nat :=
  ds.foldl (fun a c => a * 10 + (c.toNat - 48)) 0

def lowerEq (cs : List Char) (lit : String) : Bool :=
  cs.map Char.toLower = lit.toList

/-- Consume a Python digit run "digit (_? digit)*": single underscores are
allowed between digits and removed; returns the digits and the rest. -/
def takeDigitRun : List Char → List Char × List Char
  | [] => ([], [])
  | c :: '_' :: d :: rest2 =>
    if c.isDigit then
      if d.isDigit then
        let (ds, r) := takeDigitRun (d :: rest2)
        (c :: ds, r)
      else ([c], '_' :: d :: rest2)
    else ([], c :: '_' :: d :: rest2)
  | c :: rest =>
    if c.isDigit then
      let (ds, r) := takeDigitRun rest
      (c :: ds, r)
    else ([], c :: rest)

/-- Numeric part of float(): digits with an optional point and an optional
exponent; at least one digit is required. -/
def pyFloatNumeric (pos : Bool) (cs : List Char) : Option PyFloat :=
  let (ip, r1) := takeDigitRun cs
  let (fp, r3) : List Char × List Char := match r1 with
    | '.' :: r2 => takeDigitRun r2
    | _ => ([], r1)
  if ip.isEmpty && fp.isEmpty then none
  else
    let m0 : Int := (digitsToNat (ip ++ fp) : Int)
    let m : Int := if pos then m0 else -m0
    let e0 : Int := -(fp.length : Int)
    match r3 with
    | [] => some (.fin m e0)
    | e :: r4 =>
      if e = 'e' || e = 'E' then
        let (epos, r5) : Bool × List Char := match r4 with
          | '+' :: r5 => (true, r5)
          | '-' :: r5 => (false, r5)
          | r5 => (true, r5)
        let (eds, r6) := takeDigitRun r5
        if eds.isEmpty || !r6.isEmpty then none
        else
          let ex : Int := (digitsToNat eds : Int)
          some (.fin m (if epos then e0 + ex else e0 - ex))
      else none

/-- Python float(str): strip whitespace, optional sign, then inf, nan or a
numeric literal.  Used to model astype("float64") on a string column. -/
def pyFloat (s0 : List Char) : Option PyFloat :=
  let s1 := pyStrip s0
  match s1 with
  | [] => none
  | _ =>
    let pos : Bool := !(s1.headD ' ' = '-')
    let s2 := match s1 with
      | '+' :: t => t
      | '-' :: t => t
      | t => t
    if lowerEq s2 "inf" || lowerEq s2 "infinity" then
      some (if pos then .pinf else .ninf)
    else if lowerEq s2 "nan" then some .nan
    else pyFloatNumeric pos s2

/-- A calendar date as parsed by to_datetime(format="%d-%b-%Y"). -/
structure DateV where
  year : Nat
  month : Nat
  day : Nat
deriving DecidableEq, Repr

def monthNum (cs : List Char) : Option Nat :=
  let l := cs.map Char.toLower
  if l = "jan".toList then some 1
  else if l = "feb".toList then some 2
  else if l = "mar".toList then some 3
  else if l = "apr".toList then some 4
  else if l = "may".toList then some 5
  else if l = "jun".toList then some 6
  else if l = "jul".toList then some 7
  else if l = "aug".toList then some 8
  else if l = "sep".toList then some 9
  else if l = "oct".toList then some 10
  else if l = "nov".toList then some 11
  else if l = "dec".toList then some 12
  else none

def isLeap (y : Nat) : Bool :=
  y % 4 = 0 && (y % 100 ≠ 0 || y % 400 = 0)

def daysInMonth (m y : Nat) : Nat :=
  if m = 2 then (if isLeap y then 29 else 28)
  else if m = 4 || m = 6 || m = 9 || m = 11 then 30
  else 31

/-- strptime with format "%d-%b-%Y": a 1-2 digit day, a dash, a 3-letter
month abbreviation (case-insensitive), a dash, a 4-digit year consuming
the whole string; the day must exist in the month. -/
def parseDate (s : List Char) : Option DateV :=
  let dds := s.takeWhile Char.isDigit
  let r1 := s.dropWhile Char.isDigit
  if dds.length = 0 || 2 < dds.length then none
  else
    match r1 with
    | '-' :: m1 :: m2 :: m3 :: '-' :: r4 =>
      match monthNum [m1, m2, m3] with
      | some m =>
        let yds := r4.takeWhile Char.isDigit
        let r5 := r4.dropWhile Char.isDigit
        if yds.length = 4 && r5.isEmpty then
          let d := digitsToNat dds
          let y := digitsToNat yds
          if 1 ≤ d && d ≤ daysInMonth m y then some ⟨y, m, d⟩ else none
        else none
      | none => none
    | _ => none

/-! ## The dataframe stage (make_pd_dataframe, source lines 85-149)

A pandas DataFrame is modelled as an ordered list of column names plus a
list of rows; a row maps a column name to an optional cell value (none is
NaN / NaT / NA). -/

inductive Value where
  | vstr : List Char → Value
  | vnum : PyFloat → Value
  | vdate : DateV → Value
deriving DecidableEq, Repr

abbrev Row : Type := String → Option Value

structure Frame where
  cols : List String
  rows : List Row

def fieldName : FieldId → String
  | .name => "name"
  | .department => "department"
  | .job_department => "job_department"
  | .job_type => "job_type"
  | .job_title => "job_title"
  | .job_rank => "job_rank"
  | .annual_salary => "annual_salary"
  | .first_hired_date => "first_hired_date"
  | .adj_service_date => "adj_service_date"
  | .rank_start_date => "rank_start_date"
  | .appt_start_date => "appt_start_date"
  | .appt_end_date => "appt_end_date"
  | .appt_percent => "appt_percent"

/-- The thirteen column names in field-definition order. -/
def fieldNames : List String := fieldList.map fieldName

def fieldOf (c : String) : Option FieldId :=
  fieldList.find? (fun f => fieldName f = c)

/-- A parsed record as a dataframe row (pd.DataFrame of a list of dicts:
the columns are the thirteen keys, absent values become NaN). -/
def recToRow (rec : EmpRecord) : Row :=
  fun c => match fieldOf c with
    | some f => (rec f).map Value.vstr
    | none => none

/-- pd.DataFrame(faculty_data): column names are the keys of the dicts (in
key order, empty for an empty list), one row per record. -/
def dfFromRecords (recs : List EmpRecord) : Frame :=
  ⟨match recs with | [] => [] | _ :: _ => fieldNames, recs.map recToRow⟩

/-- Does the record have all thirteen fields present? -/
def allPresent (rec : EmpRecord) : Bool :=
  fieldList.all (fun f => (rec f).isSome)

/-- DataFrame.dropna(): keep the rows with no missing value in any
column. -/
def dropnaF (fr : Frame) : Frame :=
  ⟨fr.cols, fr.rows.filter (fun r => fr.cols.all (fun c => (r c).isSome))⟩

inductive DType where
  | dstr | dfloat | ddate
deriving DecidableEq, Repr

/-- The dtypes dict of source lines 101-115, in iteration order. -/
def dtypeList : List (String × DType) :=
  [("name", .dstr), ("department", .dstr), ("job_department", .dstr),
   ("job_type", .dstr), ("job_title", .dstr), ("job_rank", .dstr),
   ("annual_salary", .dfloat), ("first_hired_date", .ddate),
   ("adj_service_date", .ddate), ("rank_start_date", .ddate),
   ("appt_start_date", .ddate), ("appt_end_date", .ddate),
   ("appt_percent", .dfloat)]

/-- Coerce one cell: astype("string") keeps the value, astype("float64")
raises on an unparsable string, to_datetime(errors="coerce") turns an
unparsable string into NaT; missing cells stay missing. -/
def typeCell (dt : DType) : Option Value → Except String (Option Value)
  | none => .ok none
  | some (.vstr s) =>
    match dt with
    | .dstr => .ok (some (.vstr s))
    | .dfloat =>
      match pyFloat s with
      | some q => .ok (some (.vnum q))
      | none => .error "could not convert string to float"
    | .ddate => .ok ((parseDate s).map .vdate)
  | some v => .ok (some v)

/-- Replace the value of one column in a row. -/
def updateRow (r : Row) (c : String) (v : Option Value) : Row :=
  fun n => if n = c then v else r n

/-- Coerce one column across all rows. -/
def typeRowsCol (dt : DType) (c : String) : List Row → Except String (List Row)
  | [] => .ok []
  | r :: rs =>
    match typeCell dt (r c), typeRowsCol dt c rs with
    | .ok v, .ok rest => .ok (updateRow r c v :: rest)
    | .error e, _ => .error e
    | .ok _, .error e => .error e

/-- The dtype loop of source lines 119-125: one column at a time, in dict
order; a column absent from the frame is a KeyError. -/
def typeCols : List (String × DType) → Frame → Except String Frame
  | [], fr => .ok fr
  | cd :: rest, fr =>
    if cd.1 ∈ fr.cols then
      match typeRowsCol cd.2 cd.1 fr.rows with
      | .ok newRows => typeCols rest ⟨fr.cols, newRows⟩
      | .error e => .error e
    else .error "KeyError"

/-- Column assignment df[c] = f(row): appends the column if new, keeps the
column order otherwise. -/
def setCol (fr : Frame) (c : String) (f : Row → Option Value) : Frame :=
  ⟨if c ∈ fr.cols then fr.cols else fr.cols ++ [c],
   fr.rows.map (fun r => updateRow r c (f r))⟩

/-- The first_name helper column (source lines 133-135). -/
def addFirstNameCol (fr : Frame) : Frame :=
  setCol fr "first_name" (fun r =>
    match r "name" with
    | some (.vstr s) => (deriveFirstName s).map .vstr
    | _ => none)

/-- merge(gender_df, how="left", on="first_name") (source lines 136-140):
every left row is kept in order; a row with no match gets NaN, a row with
matches is repeated once per matching right row; NaN keys match nothing. -/
def mergeGender (fr : Frame) (g : List (List Char × List Char)) : Frame :=
  ⟨fr.cols ++ ["estimated_gender"],
   fr.rows.flatMap (fun r =>
     match g.filter (fun p => r "first_name" = some (.vstr p.1)) with
     | [] => [updateRow r "estimated_gender" none]
     | ms => ms.map (fun p => updateRow r "estimated_gender" (some (.vstr p.2))))⟩

/-- df.drop([c], axis=1) (source line 141). -/
def dropColF (fr : Frame) (c : String) : Frame :=
  ⟨fr.cols.filter (fun x => x ≠ c), fr.rows.map (fun r => updateRow r c none)⟩

/-- The dept_class assignments of source lines 146-147: map the
job_department code through the lookup, then upper-case the column. -/
def addDeptClass (fr : Frame) (dm : List Char → Option (List Char)) : Frame :=
  let fr1 := setCol fr "dept_class" (fun r =>
    match r "job_department" with
    | some (.vstr s) => (dm s).map .vstr
    | _ => none)
  setCol fr1 "dept_class" (fun r =>
    match r "dept_class" with
    | some (.vstr s) => some (.vstr (pyUpper s))
    | v => v)

/-- make_pd_dataframe (source lines 85-149).  The gender CSV is given as
its row list (first_name, estimated_gender) after the rename of line 129;
the dept-class JSON object is given as a lookup function. -/
def make_pd_dataframe (recs : List EmpRecord)
    (g : Option (List (List Char × List Char)))
    (dm : Option (List Char → Option (List Char))) : Except String Frame := do
  let base := dropnaF (dfFromRecords recs)
  let typed ← typeCols dtypeList base
  let withG :=
    match g with
    | none => typed
    | some gl => dropColF (mergeGender (addFirstNameCol typed) gl) "first_name"
  let final :=
    match dm with
    | none => withG
    | some m => addDeptClass withG m
  pure final

/-- Rows of a dataframe result (empty when the computation raised). -/
def rowsOfE : Except String Frame → List Row
  | .ok fr => fr.rows
  | .error _ => []

/-- Columns of a dataframe result (empty when the computation raised). -/
def colsOfE : Except String Frame → List String
  | .ok fr => fr.cols
  | .error _ => []

/-- A test record with all thirteen fields present and coercible. -/
def recFull : EmpRecord := fun f =>
  match f with
  | .name => some "Doe, Jane Q".toList
  | .department => some "Biology".toList
  | .job_department => some "BIOL".toList
  | .job_type => some "Professor".toList
  | .job_title => some "Prof".toList
  | .job_rank => some "Full".toList
  | .annual_salary => some "100000".toList
  | .first_hired_date => some "15-Jan-2020".toList
  | .adj_service_date => some "15-Jan-2020".toList
  | .rank_start_date => some "15-Jan-2020".toList
  | .appt_start_date => some "15-Jan-2020".toList
  | .appt_end_date => some "15-Jan-2021".toList
  | .appt_percent => some "100".toList

/-- recFull with job_rank blanked out. -/
def recMissing : EmpRecord := fun f =>
  match f with
  | .job_rank => none
  | f' => recFull f'

/-- Modelled from the claim's words, for comparison with the code: the
appt_start_date field extracted with a line-break terminator (the claim
counts appt_start_date among the newline-terminated date fields). -/
def claimApptStartNl (b : List Char) : Option (List Char) :=
  (reSearch ⟨"Appt Begin Date: ".toList, false, Term.nl⟩ b).map pyStrip

/-! ## Helper definitions for the dataframe lemmas -/

/-- Constructor test for Except results. -/
def exOk {α : Type} : Except String α → Bool
  | .ok _ => true
  | .error _ => false

/-- The value part of typeCell (its error case yields an unused none). -/
def typeCellD (dt : DType) (x : Option Value) : Option Value :=
  match typeCell dt x with
  | .ok v => v
  | .error _ => none

/-- The cumulative effect of the dtype loop on one row. -/
def rowTypeAll : List (String × DType) → Row → Row
  | [], r => r
  | cd :: rest, r => rowTypeAll rest (updateRow r cd.1 (typeCellD cd.2 (r cd.1)))

/-- Does the dtype loop succeed on one row? -/
def rowOkAll : List (String × DType) → Row → Bool
  | [], _ => true
  | cd :: rest, r =>
    exOk (typeCell cd.2 (r cd.1))
      && rowOkAll rest (updateRow r cd.1 (typeCellD cd.2 (r cd.1)))

/-- Dictionary lookup in the gender table by first name. -/
def glookup (gl : List (List Char × List Char)) (fn : List Char) :
    Option (List Char) :=
  (gl.find? (fun p => decide (p.1 = fn))).map Prod.snd

/-- The estimated_gender cell obtained by merging on a key cell. -/
def glookupKey (gl : List (List Char × List Char)) (key : Option Value) :
    Option Value :=
  (gl.find? (fun p => decide (key = some (Value.vstr p.1)))).map
    (fun p => Value.vstr p.2)

/-- The first_name cell computed from a row's name cell. -/
def fnVal (r : Row) : Option Value :=
  match r "name" with
  | some (.vstr s) => (deriveFirstName s).map Value.vstr
  | _ => none

/-- The final dept_class cell computed from a row's job_department cell. -/
def dcFinal (dm : List Char → Option (List Char)) (r : Row) : Option Value :=
  match r "job_department" with
  | some (.vstr s) => (dm s).map (fun v => Value.vstr (pyUpper v))
  | _ => none

/-- The five date-typed fields. -/
def dateFields : List FieldId :=
  [.first_hired_date, .adj_service_date, .rank_start_date,
   .appt_start_date, .appt_end_date]

/-- A gender table is a mapping: its first-name keys are distinct. -/
def gOk : Option (List (List Char × List Char)) → Prop
  | none => True
  | some gl => (gl.map Prod.fst).Nodup

/-- Generic join with a separator (used only to phrase the claim text of
the gender derivation). -/
def joinSep (sep : List Char) : List (List Char) → List Char
  | [] => []
  | [l] => l
  | l :: ls => l ++ sep ++ joinSep sep ls

/-- Modelled from the claim's words, for comparison with the code: the
first whitespace-delimited token of the text after the FIRST ", "
separator of the name (the text after the first separator is the join of
all split parts but the first). -/
def claimFirstName (s : List Char) : Option (List Char) :=
  match pySplit ", ".toList s with
  | [] => none
  | _ :: [] => none
  | _ :: rest =>
    some (((joinSep ", ".toList rest).dropWhile isWS).takeWhile
      (fun c => !(isWS c)))

/-- recFull with a two-comma name. -/
def recTwoCommas : EmpRecord := fun f =>
  match f with
  | .name => some "Last, A, B".toList
  | f2 => recFull f2

/-- Enrichment steps g (gender) of make_pd_dataframe after typing. -/
def postG (g : Option (List (List Char × List Char))) (typed : Frame) : Frame :=
  match g with
  | none => typed
  | some gl => dropColF (mergeGender (addFirstNameCol typed) gl) "first_name"

/-- Enrichment step d (dept_class) of make_pd_dataframe. -/
def postDm (dm : Option (List Char → Option (List Char))) (fr : Frame) : Frame :=
  match dm with
  | none => fr
  | some m => addDeptClass fr m

/-- Row-level effect of the gender enrichment. -/
def postRowG (g : Option (List (List Char × List Char))) (r0 : Row) : Row :=
  match g with
  | none => r0
  | some gl =>
    updateRow (updateRow (updateRow r0 "first_name" (fnVal r0))
      "estimated_gender" (glookupKey gl (fnVal r0))) "first_name" none

/-- Row-level effect of the dept_class enrichment. -/
def postRowDm (dm : Option (List Char → Option (List Char))) (r : Row) : Row :=
  match dm with
  | none => r
  | some m => updateRow r "dept_class" (dcFinal m r)

/-- recFull with an unparsable appt_end_date text. -/
def recBadDate : EmpRecord := fun f =>
  match f with
  | .appt_end_date => some "not-a-date".toList
  | f2 => recFull f2

/-- Column suffix contributed by the gender lookup. -/
def gCols : Option (List (List Char × List Char)) → List String
  | some _ => ["estimated_gender"]
  | none => []

/-- Column suffix contributed by the dept-class lookup. -/
def dmCols : Option (List Char → Option (List Char)) → List String
  | some _ => ["dept_class"]
  | none => []

/-! ## Lemmas about the Block Splitter -/

theorem splitDashesGo_length (cs : List Char) :
    ∀ acc d, (splitDashesGo cs acc d).length = (sepRunsGo cs d).length + 1 := by
  induction cs with
  | nil =>
    intro acc d
    by_cases hd : 80 ≤ d <;> simp [splitDashesGo, sepRunsGo, hd]
  | cons c cs ih =>
    intro acc d
    by_cases hc : c = '-'
    · simp [splitDashesGo, sepRunsGo, hc, ih]
    · by_cases hd : 80 ≤ d <;>
        simp [splitDashesGo, sepRunsGo, hc, hd, ih]

theorem splitDashesGo_zero (cs : List Char) :
    ∀ acc d, sepRunsGo cs d = [] →
      splitDashesGo cs acc d = [acc.reverse ++ List.replicate d '-' ++ cs] := by
  induction cs with
  | nil =>
    intro acc d h
    by_cases hd : 80 ≤ d
    · simp [sepRunsGo, hd] at h
    · simp [splitDashesGo, hd]
  | cons c cs ih =>
    intro acc d h
    by_cases hc : c = '-'
    · rw [sepRunsGo, if_pos hc] at h
      rw [splitDashesGo, if_pos hc, ih acc (d + 1) h, List.replicate_succ',
        hc]
      simp
    · by_cases hd : 80 ≤ d
      · rw [sepRunsGo, if_neg hc, if_pos hd] at h
        exact absurd h (by simp)
      · rw [sepRunsGo, if_neg hc, if_neg hd] at h
        rw [splitDashesGo, if_neg hc, if_neg hd, ih _ 0 h]
        simp

theorem splitDashesGo_join (cs : List Char) :
    ∀ acc d, joinBlocks (splitDashesGo cs acc d) (sepRunsGo cs d)
      = acc.reverse ++ List.replicate d '-' ++ cs := by
  induction cs with
  | nil =>
    intro acc d
    by_cases hd : 80 ≤ d <;> simp [splitDashesGo, sepRunsGo, hd, joinBlocks]
  | cons c cs ih =>
    intro acc d
    by_cases hc : c = '-'
    · rw [splitDashesGo, if_pos hc, sepRunsGo, if_pos hc, ih acc (d + 1),
        List.replicate_succ', hc]
      simp
    · by_cases hd : 80 ≤ d
      · rw [splitDashesGo, if_neg hc, if_pos hd, sepRunsGo, if_neg hc,
          if_pos hd, joinBlocks, ih [c] 0]
        simp
      · rw [splitDashesGo, if_neg hc, if_neg hd, sepRunsGo, if_neg hc,
          if_neg hd, ih _ 0]
        simp

theorem sepRunsGo_ge (cs : List Char) :
    ∀ d n, n ∈ sepRunsGo cs d → 80 ≤ n := by
  induction cs with
  | nil =>
    intro d n h
    by_cases hd : 80 ≤ d
    · simp [sepRunsGo, hd] at h
      omega
    · simp [sepRunsGo, hd] at h
  | cons c cs ih =>
    intro d n h
    by_cases hc : c = '-'
    · rw [sepRunsGo, if_pos hc] at h
      exact ih _ n h
    · by_cases hd : 80 ≤ d
      · rw [sepRunsGo, if_neg hc, if_pos hd] at h
        rcases List.mem_cons.mp h with rfl | h2
        · exact hd
        · exact ih _ n h2
      · rw [sepRunsGo, if_neg hc, if_neg hd] at h
        exact ih _ n h

/-- C1.  The Block Splitter: for a text with N separator runs (maximal
runs of 80 or more consecutive dashes) the split yields exactly N+1
blocks; with zero runs it yields one block equal to the whole input; the
runs are delimiters, not content: interleaving the blocks with the
separator runs (each of length at least 80) reconstructs the input. -/
theorem block_splitter_runs (s : List Char) :
    (splitDashes s).length = (sepRuns s).length + 1
    ∧ (sepRuns s = [] → splitDashes s = [s])
    ∧ joinBlocks (splitDashes s) (sepRuns s) = s
    ∧ (∀ n ∈ sepRuns s, 80 ≤ n) := by
  refine ⟨splitDashesGo_length s [] 0, fun h => ?_, ?_, fun n h => sepRunsGo_ge s 0 n h⟩
  · rw [splitDashes, splitDashesGo_zero s [] 0 h]
    simp
  · have := splitDashesGo_join s [] 0
    simpa using this

/-- C1 witness: a separator-free text gives one block (the whole text),
and a run of exactly 80 dashes is a separator run. -/
theorem block_splitter_runs_witness :
    splitDashes "abc".toList = ["abc".toList]
    ∧ 80 ≤ 80 ∧ (splitDashes (List.replicate 80 '-')).length = 2 := by
  refine ⟨(block_splitter_runs "abc".toList).2.1 (by decide), ?_, ?_⟩
  · exact (block_splitter_runs (List.replicate 80 '-')).2.2.2 80 (by decide)
  · have h := (block_splitter_runs (List.replicate 80 '-')).1
    rw [h]
    decide

/-! ## Lemmas about the Text Normalizer -/

theorem pyLines_no_lb (s : List Char) :
    ∀ l ∈ pyLines s, ∀ c ∈ l, isLB c = false := by
  induction s using pyLines.induct with
  | case1 => simp [pyLines]
  | case2 rest ih =>
    intro l hl c hc
    rw [show pyLines ('\r' :: '\n' :: rest) = [] :: pyLines rest from rfl] at hl
    rcases List.mem_cons.mp hl with rfl | h2
    · simp at hc
    · exact ih l h2 c hc
  | case3 c rest hne hlb ih =>
    intro l hl d hd
    rw [show pyLines (c :: rest) = [] :: pyLines rest by
      simp only [pyLines, hlb, if_true]] at hl
    rcases List.mem_cons.mp hl with rfl | h2
    · simp at hd
    · exact ih l h2 d hd
  | case4 c rest hne hlb hnil ih =>
    intro l hl d hd
    rw [show pyLines (c :: rest) = [[c]] by
      simp only [pyLines, hlb, if_false, hnil, Bool.false_eq_true]] at hl
    simp only [List.mem_singleton] at hl
    subst hl
    simp only [List.mem_singleton] at hd
    subst hd
    simpa using hlb
  | case5 c rest hne hlb l ls heq ih =>
    intro l2 hl d hd
    rw [show pyLines (c :: rest) = (c :: l) :: ls by
      simp only [pyLines, hlb, if_false, heq, Bool.false_eq_true]] at hl
    rcases List.mem_cons.mp hl with rfl | h2
    · rcases List.mem_cons.mp hd with rfl | h3
      · simpa using hlb
      · exact ih l (heq ▸ List.mem_cons_self l ls) d h3
    · exact ih l2 (heq ▸ List.mem_cons.mpr (Or.inr h2)) d hd

theorem pyLines_append (l t : List Char) (h : ∀ c ∈ l, isLB c = false) :
    pyLines (l ++ '\n' :: t) = l :: pyLines t := by
  induction l with
  | nil => rfl
  | cons c l2 ih =>
    have hc : isLB c = false := h c (List.mem_cons_self c l2)
    have hcr : c ≠ '\r' := by
      intro h2
      rw [h2] at hc
      simp [isLB] at hc
    have ih2 := ih (fun d hd => h d (List.mem_cons.mpr (Or.inr hd)))
    rw [List.cons_append, pyLines.eq_3 c _ (fun r1 h2 _ => hcr h2)]
    simp only [hc, Bool.false_eq_true, if_false]
    rw [ih2]

theorem pyLines_single (l : List Char) (hne : l ≠ [])
    (h : ∀ c ∈ l, isLB c = false) : pyLines l = [l] := by
  induction l with
  | nil => exact absurd rfl hne
  | cons c l2 ih =>
    have hc : isLB c = false := h c (List.mem_cons_self c l2)
    have hcr : c ≠ '\r' := by
      intro h2
      rw [h2] at hc
      simp [isLB] at hc
    rw [pyLines.eq_3 c _ (fun r1 h2 _ => hcr h2)]
    simp only [hc, Bool.false_eq_true, if_false]
    match l2, ih, h with
    | [], _, _ => rfl
    | d :: l3, ih, h =>
      rw [ih (by simp) (fun e he => h e (List.mem_cons.mpr (Or.inr he)))]

theorem pyLines_joinNl (ls : List (List Char))
    (h : ∀ l ∈ ls, l ≠ [] ∧ ∀ c ∈ l, isLB c = false) :
    pyLines (joinNl ls) = ls := by
  induction ls with
  | nil => rfl
  | cons l ls2 ih =>
    match ls2, ih with
    | [], _ =>
      exact pyLines_single l (h l (by simp)).1 (h l (by simp)).2
    | l2 :: ls3, ih =>
      rw [show joinNl (l :: l2 :: ls3) = l ++ '\n' :: joinNl (l2 :: ls3) from rfl]
      rw [pyLines_append l _ (h l (by simp)).2]
      rw [ih (fun x hx => h x (List.mem_cons.mpr (Or.inr hx)))]

theorem keepLine_ne_nil (l : List Char) (h : keepLine l = true) : l ≠ [] := by
  intro h2
  subst h2
  simp [keepLine, pyStrip] at h

/-- C8.  The Text Normalizer removes exactly the whitespace-only lines and
the lines containing the boilerplate marker as a substring, keeps the
surviving lines in order (re-splitting its output gives exactly the
filtered line list), and maps empty input to empty output. -/
theorem text_normalizer_filter :
    (∀ s : List Char, pyLines (cleanText s) = (pyLines s).filter keepLine)
    ∧ cleanText [] = []
    ∧ (∀ l : List Char,
        keepLine l = true ↔ (pyStrip l ≠ [] ∧ ¬ boilerplateMarker <:+: l))
    ∧ keepLine "xx Unclassified Personnel List yy".toList = false
    ∧ keepLine "   ".toList = false := by
  refine ⟨fun s => ?_, rfl, fun l => ?_, by decide, by decide⟩
  · rw [cleanText]
    refine pyLines_joinNl _ (fun l hl => ?_)
    have hmem := List.mem_of_mem_filter hl
    have hkeep := List.of_mem_filter hl
    exact ⟨keepLine_ne_nil l hkeep, pyLines_no_lb s l hmem⟩
  · rw [keepLine]
    exact decide_eq_true_iff

/-! ## Lemmas about the Field Extractor -/

theorem lazyCap_spec (t : Term) (cs : List Char) :
    ∀ v, lazyCap t cs = some v →
      v ≠ [] ∧ v = cs.take v.length ∧ matchTerm t (cs.drop v.length) = true ∧
      ∀ j, 1 ≤ j → j < v.length → matchTerm t (cs.drop j) = false := by
  induction cs with
  | nil => intro v h; simp [lazyCap] at h
  | cons c rest ih =>
    intro v h
    rw [lazyCap] at h
    by_cases hm : matchTerm t rest = true
    · rw [if_pos hm] at h
      obtain rfl : [c] = v := Option.some_inj.mp h
      refine ⟨by simp, rfl, by simpa using hm, fun j h1 h2 => ?_⟩
      simp only [List.length_cons, List.length_nil] at h2
      omega
    · rw [if_neg hm] at h
      obtain ⟨w, hw, rfl⟩ := Option.map_eq_some'.mp h
      obtain ⟨hne, htake, hterm, hmin⟩ := ih w hw
      refine ⟨by simp, ?_, by simpa using hterm, ?_⟩
      · rw [List.length_cons, List.take_succ_cons]
        exact congrArg (c :: ·) htake
      · intro j h1 h2
        obtain ⟨j', rfl⟩ : ∃ j', j = j' + 1 := ⟨j - 1, by omega⟩
        rw [List.drop_succ_cons]
        rcases Nat.eq_zero_or_pos j' with rfl | hj'
        · simpa using hm
        · exact hmin j' hj' (by simpa using h2)

theorem tryWsBack_suffix (t : Term) (cs : List Char) :
    ∀ n v, tryWsBack t cs n = some v →
      ∃ s, s <:+ cs ∧ lazyCap t s = some v := by
  intro n
  induction n with
  | zero => intro v h; simp [tryWsBack] at h
  | succ w ih =>
    intro v h
    rw [tryWsBack] at h
    cases hl : lazyCap t (cs.drop (w + 1)) with
    | some u => rw [hl] at h; cases h; exact ⟨cs.drop (w + 1), List.drop_suffix _ _, hl⟩
    | none => rw [hl] at h; exact ih v h

theorem matchAfterLit_suffix (p : Pat) (cs : List Char) (v : List Char)
    (h : matchAfterLit p cs = some v) :
    ∃ s, s <:+ cs ∧ lazyCap p.term s = some v := by
  rw [matchAfterLit] at h
  by_cases hw : p.wsPlus = true
  · rw [if_pos hw] at h
    exact tryWsBack_suffix p.term cs _ v h
  · rw [if_neg hw] at h
    exact ⟨cs, List.suffix_refl cs, h⟩

theorem searchGo_suffix (p : Pat) (b : List Char) :
    ∀ v, searchGo p b = some v →
      ∃ s, s <:+ b ∧ lazyCap p.term s = some v := by
  induction b with
  | nil => intro v h; simp [searchGo] at h
  | cons c rest ih =>
    intro v h
    rw [searchGo] at h
    cases hh : (if p.lit.isPrefixOf (c :: rest)
                then matchAfterLit p ((c :: rest).drop p.lit.length)
                else none) with
    | some u =>
      rw [hh] at h
      cases h
      by_cases hp : p.lit.isPrefixOf (c :: rest) = true
      · rw [if_pos hp] at hh
        obtain ⟨s, hs, hcap⟩ := matchAfterLit_suffix p _ v hh
        exact ⟨s, hs.trans (List.drop_suffix _ _), hcap⟩
      · rw [if_neg hp] at hh
        cases hh
    | none =>
      rw [hh] at h
      obtain ⟨s, hs, hcap⟩ := ih v h
      exact ⟨s, hs.trans (List.suffix_cons c rest), hcap⟩

theorem searchGo_lit_occurs (p : Pat) (b : List Char) :
    ∀ v, searchGo p b = some v → p.lit <:+: b := by
  induction b with
  | nil => intro v h; simp [searchGo] at h
  | cons c rest ih =>
    intro v h
    rw [searchGo] at h
    cases hh : (if p.lit.isPrefixOf (c :: rest)
                then matchAfterLit p ((c :: rest).drop p.lit.length)
                else none) with
    | some u =>
      by_cases hp : p.lit.isPrefixOf (c :: rest) = true
      · exact (List.isPrefixOf_iff_prefix.mp hp).isInfix
      · rw [if_neg hp] at hh
        cases hh
    | none =>
      rw [hh] at h
      exact List.infix_cons (ih v h)

theorem dropWhile_head_false (p : Char → Bool) :
    ∀ (l : List Char) c t, List.dropWhile p l = c :: t → p c = false := by
  intro l
  induction l with
  | nil => intro c t h; simp at h
  | cons a l ih =>
    intro c t h
    by_cases ha : p a = true
    · rw [List.dropWhile_cons_of_pos ha] at h
      exact ih c t h
    · rw [List.dropWhile_cons_of_neg ha] at h
      cases h
      simpa using ha

theorem dropWhile_eq_drop (p : Char → Bool) :
    ∀ l : List Char, ∃ n, List.dropWhile p l = l.drop n := by
  intro l
  induction l with
  | nil => exact ⟨0, rfl⟩
  | cons a l ih =>
    by_cases ha : p a = true
    · obtain ⟨n, hn⟩ := ih
      exact ⟨n + 1, by rw [List.dropWhile_cons_of_pos ha, hn, List.drop_succ_cons]⟩
    · exact ⟨0, by rw [List.dropWhile_cons_of_neg ha, List.drop_zero]⟩

theorem take_eq_cons_head (y : List Char) (k : Nat) (c : Char) (t : List Char)
    (h : y.take k = c :: t) : ∃ y2, y = c :: y2 := by
  cases y with
  | nil => simp at h
  | cons a y2 =>
    cases k with
    | zero => simp at h
    | succ k =>
      rw [List.take_succ_cons] at h
      injection h with h1 h2
      exact ⟨y2, by rw [h1]⟩

theorem pyStrip_idem (x : List Char) : pyStrip (pyStrip x) = pyStrip x := by
  have hy : ∀ c t, x.dropWhile isWS = c :: t → isWS c = false :=
    dropWhile_head_false isWS x
  have hw : ∀ c t, (x.dropWhile isWS).reverse.dropWhile isWS = c :: t →
      isWS c = false :=
    dropWhile_head_false isWS (x.dropWhile isWS).reverse
  rw [pyStrip, pyStrip]
  set y := x.dropWhile isWS with hy_def
  set w := y.reverse.dropWhile isWS with hw_def
  have hz : w.reverse.dropWhile isWS = w.reverse := by
    cases hzc : w.reverse with
    | nil => rfl
    | cons c t =>
      obtain ⟨m, hm⟩ := dropWhile_eq_drop isWS y.reverse
      have hzy : w.reverse = y.take (y.length - m) := by
        rw [hw_def, hm, List.reverse_drop, List.reverse_reverse,
          List.length_reverse]
      have h3 : y.take (y.length - m) = c :: t := hzy.symm.trans hzc
      obtain ⟨y2, hy2⟩ := take_eq_cons_head y _ c t h3
      have hc : isWS c = false := hy c y2 hy2
      rw [List.dropWhile_cons_of_neg (by simp [hc])]
  rw [hz, List.reverse_reverse]
  have hww : w.dropWhile isWS = w := by
    cases hwc : w with
    | nil => rfl
    | cons c t =>
      have hc : isWS c = false := hw c t hwc
      rw [List.dropWhile_cons_of_neg (by simp [hc])]
  rw [hww]

theorem matchAfterLit_nil (p : Pat) : matchAfterLit p [] = none := by
  rw [matchAfterLit]
  by_cases hw : p.wsPlus = true
  · rw [if_pos hw]; rfl
  · rw [if_neg hw]; rfl

/-- C2 counterexample: on a block where the appt_start_date value
contains a double space before the line break, the code stops the value
at the double space ("AB"), not at the first line break ("AB  CD") as the
claim states for date fields. -/
theorem field_terminators_cex :
    parse_employee_block "Appt Begin Date: AB  CD\n".toList
      FieldId.appt_start_date = some "AB".toList
    ∧ claimApptStartNl "Appt Begin Date: AB  CD\n".toList
      = some "AB  CD".toList
    ∧ ("AB".toList : List Char) ≠ "AB  CD".toList := by
  exact ⟨by decide, by decide, by decide⟩

/-- C2 (amended).  Every extracted field value is the stripped shortest
nonempty capture, taken from a suffix of the block, up to the first
position where the field's terminator matches; the terminator is the
line break exactly for job_type, first_hired_date, adj_service_date,
rank_start_date and appt_percent (appt_start_date and appt_end_date stop
at two-or-more whitespace); the ws2 terminator means two contiguous
whitespace characters, the nl terminator a newline; captures may span
line boundaries. -/
theorem field_terminators :
    (∀ (b : List Char) (f : FieldId) (v : List Char),
      parse_employee_block b f = some v →
      ∃ s cap, s <:+ b ∧ lazyCap (fieldPat f).term s = some cap
        ∧ v = pyStrip cap ∧ cap ≠ [] ∧ cap = s.take cap.length
        ∧ matchTerm (fieldPat f).term (s.drop cap.length) = true
        ∧ (∀ j, 1 ≤ j → j < cap.length →
            matchTerm (fieldPat f).term (s.drop j) = false))
    ∧ (∀ f : FieldId, (fieldPat f).term = Term.nl ↔
        (f = FieldId.job_type ∨ f = FieldId.first_hired_date ∨
         f = FieldId.adj_service_date ∨ f = FieldId.rank_start_date ∨
         f = FieldId.appt_percent))
    ∧ (∀ t : List Char, matchTerm Term.ws2 t = true ↔
        ∃ a b2 r, t = a :: b2 :: r ∧ isWS a = true ∧ isWS b2 = true)
    ∧ (∀ t : List Char, matchTerm Term.nl t = true ↔ ∃ r, t = '\n' :: r)
    ∧ parse_employee_block "Name: A\nB  x".toList FieldId.name
        = some "A\nB".toList := by
  refine ⟨?_, ?_, ?_, ?_, by decide⟩
  · intro b f v h
    rw [parse_employee_block] at h
    obtain ⟨cap, hs, rfl⟩ := Option.map_eq_some'.mp h
    obtain ⟨s, hsuf, hcap⟩ := searchGo_suffix (fieldPat f) b cap hs
    obtain ⟨hne, htake, hterm, hmin⟩ := lazyCap_spec (fieldPat f).term s cap hcap
    exact ⟨s, cap, hsuf, hcap, rfl, hne, htake, hterm, hmin⟩
  · intro f
    cases f <;> decide
  · intro t
    match t with
    | [] => simp [matchTerm]
    | [a] => simp [matchTerm]
    | a :: b2 :: r =>
      rw [matchTerm, Bool.and_eq_true]
      constructor
      · rintro ⟨h1, h2⟩
        exact ⟨a, b2, r, rfl, h1, h2⟩
      · rintro ⟨a2, b3, r2, heq, h1, h2⟩
        cases heq
        exact ⟨h1, h2⟩
  · intro t
    match t with
    | [] => simp [matchTerm]
    | a :: r =>
      rw [matchTerm]
      constructor
      · intro h
        exact ⟨r, by rw [of_decide_eq_true h]⟩
      · rintro ⟨r2, heq⟩
        cases heq
        decide

/-- C2 witness: the job_type field of a concrete block satisfies the
boundary description. -/
theorem field_terminators_witness :
    ∃ s cap, s <:+ "Job Type: Faculty\nX".toList
      ∧ lazyCap (fieldPat FieldId.job_type).term s = some cap
      ∧ "Faculty".toList = pyStrip cap ∧ cap ≠ []
      ∧ cap = s.take cap.length
      ∧ matchTerm (fieldPat FieldId.job_type).term (s.drop cap.length) = true
      ∧ (∀ j, 1 ≤ j → j < cap.length →
          matchTerm (fieldPat FieldId.job_type).term (s.drop j) = false) :=
  field_terminators.1 "Job Type: Faculty\nX".toList FieldId.job_type
    "Faculty".toList (by decide)

/-- C3 counterexample: a block in which the Name label is followed by
whitespace only up to the double space produces the EMPTY string as the
name value, contradicting the claim that present values are never the
empty string. -/
theorem record_values_cex :
    parse_employee_block "Name:    x".toList FieldId.name
      = some "".toList := by
  decide

/-- C3 (amended).  Every field key of the extracted record is present
(the record is a total mapping); every present value is a trimmed string
(stripping it again changes nothing), though it can be the empty string
when the capture is all whitespace; a field whose label does not occur in
the block is recorded as absent, not as an error. -/
theorem record_keys_and_absence :
    (∀ (b : List Char) (f : FieldId) (v : List Char),
       parse_employee_block b f = some v → pyStrip v = v)
    ∧ (∀ (b : List Char) (f : FieldId),
       ¬ (fieldPat f).lit <:+: b → parse_employee_block b f = none) := by
  constructor
  · intro b f v h
    rw [parse_employee_block] at h
    obtain ⟨cap, hs, rfl⟩ := Option.map_eq_some'.mp h
    exact pyStrip_idem cap
  · intro b f h
    rw [parse_employee_block]
    cases hs : reSearch (fieldPat f) b with
    | none => rfl
    | some v => exact absurd (searchGo_lit_occurs (fieldPat f) b v hs) h

/-- C3 witness: a concrete extracted value is already trimmed, and a
block without the Name label yields an absent name. -/
theorem record_keys_and_absence_witness :
    pyStrip "Smith, Al".toList = "Smith, Al".toList
    ∧ parse_employee_block "zzz".toList FieldId.name = none :=
  ⟨record_keys_and_absence.1 "Name: Smith, Al  ".toList FieldId.name
      "Smith, Al".toList (by decide),
   record_keys_and_absence.2 "zzz".toList FieldId.name (by decide)⟩

/-- C7.  The extractor uses the leftmost position at which the whole
pattern matches: whenever some position matches, the search result equals
the attempt at the least matching position (every earlier position fails);
the extractor per field is exactly this search; with a duplicated Name
label the first value is used. -/
theorem first_match_leftmost :
    (∀ (p : Pat) (b : List Char) (i : Nat), (matchesAt p b i).isSome = true →
      ∃ j, j ≤ i ∧ reSearch p b = matchesAt p b j
        ∧ ∀ k, k < j → matchesAt p b k = none)
    ∧ (∀ (b : List Char) (f : FieldId),
        parse_employee_block b f = (reSearch (fieldPat f) b).map pyStrip)
    ∧ parse_employee_block "Name: Alice  Name: Bob  ".toList FieldId.name
        = some "Alice".toList := by
  refine ⟨?_, fun b f => rfl, by decide⟩
  intro p b
  induction b with
  | nil =>
    intro i h
    rw [matchesAt] at h
    rw [List.drop_nil] at h
    by_cases hp : p.lit.isPrefixOf ([] : List Char) = true
    · rw [if_pos hp, List.drop_nil, matchAfterLit_nil] at h
      simp at h
    · rw [if_neg hp] at h
      simp at h
  | cons c rest ih =>
    intro i h
    have hhead : (if p.lit.isPrefixOf (c :: rest) = true
        then matchAfterLit p ((c :: rest).drop p.lit.length)
        else none) = matchesAt p (c :: rest) 0 := rfl
    cases h0 : matchesAt p (c :: rest) 0 with
    | some v =>
      refine ⟨0, Nat.zero_le i, ?_, fun k hk => absurd hk (Nat.not_lt_zero k)⟩
      rw [reSearch, searchGo, hhead, h0]
    | none =>
      cases i with
      | zero =>
        rw [h0] at h
        simp at h
      | succ i2 =>
        have hshift : ∀ k, matchesAt p (c :: rest) (k + 1) = matchesAt p rest k := by
          intro k
          rw [matchesAt, matchesAt, List.drop_succ_cons]
        rw [hshift i2] at h
        obtain ⟨j2, hj1, hj2, hj3⟩ := ih i2 h
        refine ⟨j2 + 1, by omega, ?_, ?_⟩
        · rw [hshift j2, ← hj2, reSearch, searchGo, hhead, h0, reSearch]
        · intro k hk
          cases k with
          | zero => exact h0
          | succ k2 =>
            rw [hshift k2]
            exact hj3 k2 (by omega)

/-- C7 witness: in the duplicated-label block the pattern also matches at
position 13 (the second label), and the search uses the least matching
position. -/
theorem first_match_leftmost_witness :
    ∃ j, j ≤ 13
      ∧ reSearch (fieldPat FieldId.name) "Name: Alice  Name: Bob  ".toList
        = matchesAt (fieldPat FieldId.name) "Name: Alice  Name: Bob  ".toList j
      ∧ ∀ k, k < j →
        matchesAt (fieldPat FieldId.name) "Name: Alice  Name: Bob  ".toList k
          = none :=
  first_match_leftmost.1 (fieldPat FieldId.name)
    "Name: Alice  Name: Bob  ".toList 13 (by decide)

theorem exOk_ok {α : Type} {e : Except String α} (h : exOk e = true) :
    ∃ a, e = .ok a := by
  cases e with
  | ok a => exact ⟨a, rfl⟩
  | error m => simp [exOk] at h

/-! ## Lemmas about the dataframe stage -/

theorem updateRow_eq (r : Row) (c : String) (v : Option Value) :
    updateRow r c v c = v := by
  rw [updateRow]
  exact if_pos rfl

theorem updateRow_ne (r : Row) (c : String) (v : Option Value) (c2 : String)
    (h : c2 ≠ c) : updateRow r c v c2 = r c2 := by
  rw [updateRow]
  exact if_neg h

theorem updateRow_override (r : Row) (c : String) (v1 v2 : Option Value) :
    updateRow (updateRow r c v1) c v2 = updateRow r c v2 := by
  funext n
  by_cases hn : n = c
  · rw [hn, updateRow_eq, updateRow_eq]
  · rw [updateRow_ne _ _ _ _ hn, updateRow_ne _ _ _ _ hn,
      updateRow_ne _ _ _ _ hn]

theorem typeCell_dstr (x : Option Value) : typeCell DType.dstr x = .ok x := by
  match x with
  | none => rfl
  | some (.vstr s) => rfl
  | some (.vnum q) => rfl
  | some (.vdate d) => rfl

theorem typeCell_ddate_ok (x : Option Value) :
    (typeCell DType.ddate x).isOk = true := by
  match x with
  | none => rfl
  | some (.vstr s) => rfl
  | some (.vnum q) => rfl
  | some (.vdate d) => rfl

theorem typeCellD_dstr (x : Option Value) : typeCellD DType.dstr x = x := by
  rw [typeCellD, typeCell_dstr]

theorem typeCellD_ddate_str (s : List Char) :
    typeCellD DType.ddate (some (.vstr s)) = (parseDate s).map Value.vdate := by
  rfl

theorem recToRow_field (rec : EmpRecord) (f : FieldId) :
    recToRow rec (fieldName f) = (rec f).map Value.vstr := by
  cases f <;> rfl

theorem typeRowsCol_ok (dt : DType) (c : String) :
    ∀ (rows rows2 : List Row), typeRowsCol dt c rows = .ok rows2 →
      rows2 = rows.map (fun r => updateRow r c (typeCellD dt (r c))) := by
  intro rows
  induction rows with
  | nil =>
    intro rows2 h
    injection h with h2
    subst h2
    rfl
  | cons r rs ih =>
    intro rows2 h
    rw [typeRowsCol] at h
    cases hc : typeCell dt (r c) with
    | error e => rw [hc] at h; simp at h
    | ok v =>
      rw [hc] at h
      cases hr : typeRowsCol dt c rs with
      | error e => rw [hr] at h; simp at h
      | ok rest2 =>
        rw [hr] at h
        simp at h
        rw [← h, ih rest2 hr, List.map_cons]
        congr 1
        rw [typeCellD, hc]

theorem typeRowsCol_of_ok (dt : DType) (c : String) :
    ∀ rows : List Row, (∀ r ∈ rows, exOk (typeCell dt (r c)) = true) →
      typeRowsCol dt c rows
        = .ok (rows.map (fun r => updateRow r c (typeCellD dt (r c)))) := by
  intro rows
  induction rows with
  | nil => intro h; rfl
  | cons r rs ih =>
    intro h
    obtain ⟨v, hv⟩ := exOk_ok (h r (List.mem_cons_self r rs))
    rw [typeRowsCol, hv, ih (fun r2 h2 => h r2 (List.mem_cons.mpr (Or.inr h2)))]
    rw [List.map_cons]
    have : typeCellD dt (r c) = v := by rw [typeCellD, hv]
    rw [this]

theorem typeCols_ok (dl : List (String × DType)) :
    ∀ (fr fr2 : Frame), typeCols dl fr = .ok fr2 →
      fr2.cols = fr.cols ∧ fr2.rows = fr.rows.map (rowTypeAll dl)
      ∧ ∀ cd ∈ dl, cd.1 ∈ fr.cols := by
  induction dl with
  | nil =>
    intro fr fr2 h
    injection h with h2
    subst h2
    refine ⟨rfl, by simp [rowTypeAll], by simp⟩
  | cons cd rest ih =>
    intro fr fr2 h
    rw [typeCols] at h
    by_cases hm : cd.1 ∈ fr.cols
    · rw [if_pos hm] at h
      cases hr : typeRowsCol cd.2 cd.1 fr.rows with
      | error e => rw [hr] at h; simp at h
      | ok newRows =>
        rw [hr] at h
        obtain ⟨hcols, hrows, hmem⟩ := ih ⟨fr.cols, newRows⟩ fr2 h
        refine ⟨hcols, ?_, fun ce hce => ?_⟩
        · rw [hrows]
          show newRows.map (rowTypeAll rest) = fr.rows.map (rowTypeAll (cd :: rest))
          rw [typeRowsCol_ok cd.2 cd.1 fr.rows newRows hr, List.map_map]
          apply List.map_congr_left
          intro r _
          rfl
        · rcases List.mem_cons.mp hce with rfl | h2
          · exact hm
          · exact hmem ce h2
    · rw [if_neg hm] at h
      simp at h

theorem typeCols_of_ok (dl : List (String × DType)) :
    ∀ fr : Frame, (∀ cd ∈ dl, cd.1 ∈ fr.cols) →
      (∀ r ∈ fr.rows, rowOkAll dl r = true) →
      typeCols dl fr = .ok ⟨fr.cols, fr.rows.map (rowTypeAll dl)⟩ := by
  induction dl with
  | nil =>
    intro fr _ _
    rw [typeCols]
    congr 1
    cases fr with
    | mk cols rows => simp [rowTypeAll]
  | cons cd rest ih =>
    intro fr hcols hrows
    rw [typeCols, if_pos (hcols cd (List.mem_cons_self cd rest))]
    have hcell : ∀ r ∈ fr.rows, exOk (typeCell cd.2 (r cd.1)) = true := by
      intro r hr
      have := hrows r hr
      rw [rowOkAll, Bool.and_eq_true] at this
      exact this.1
    rw [typeRowsCol_of_ok cd.2 cd.1 fr.rows hcell]
    show typeCols rest ⟨fr.cols, fr.rows.map
        (fun r => updateRow r cd.1 (typeCellD cd.2 (r cd.1)))⟩
      = Except.ok ⟨fr.cols, fr.rows.map (rowTypeAll (cd :: rest))⟩
    have hrest := ih ⟨fr.cols, fr.rows.map
      (fun r => updateRow r cd.1 (typeCellD cd.2 (r cd.1)))⟩
      (fun ce hce => hcols ce (List.mem_cons.mpr (Or.inr hce)))
      (by
        intro r2 hr2
        simp only [List.mem_map] at hr2
        obtain ⟨r, hr, rfl⟩ := hr2
        have := hrows r hr
        rw [rowOkAll, Bool.and_eq_true] at this
        exact this.2)
    rw [hrest, List.map_map]
    congr 2

theorem rowTypeAll_not_mem (dl : List (String × DType)) :
    ∀ (r : Row) (c : String), c ∉ dl.map Prod.fst →
      rowTypeAll dl r c = r c := by
  induction dl with
  | nil => intro r c _; rfl
  | cons cd rest ih =>
    intro r c hc
    rw [List.map_cons] at hc
    have h1 : c ≠ cd.1 := fun h => hc (h ▸ List.mem_cons_self _ _)
    have h2 : c ∉ rest.map Prod.fst := fun h => hc (List.mem_cons.mpr (Or.inr h))
    rw [rowTypeAll, ih _ c h2, updateRow_ne _ _ _ _ h1]

theorem rowTypeAll_at (dl : List (String × DType)) :
    ∀ (r : Row) (c : String) (dt : DType), (c, dt) ∈ dl →
      (dl.map Prod.fst).Nodup →
      rowTypeAll dl r c = typeCellD dt (r c) := by
  induction dl with
  | nil => intro r c dt h _; simp at h
  | cons cd rest ih =>
    intro r c dt hmem hnodup
    rw [List.map_cons, List.nodup_cons] at hnodup
    rcases List.mem_cons.mp hmem with heq | h2
    · have hc : c = cd.1 := by rw [← heq]
      have hd : dt = cd.2 := by rw [← heq]
      subst hc
      subst hd
      rw [rowTypeAll, rowTypeAll_not_mem rest _ cd.1 hnodup.1, updateRow_eq]
    · have h1 : c ≠ cd.1 := by
        intro h
        exact hnodup.1 (h ▸ (List.mem_map.mpr ⟨(c, dt), h2, rfl⟩))
      rw [rowTypeAll, ih _ c dt h2 hnodup.2, updateRow_ne _ _ _ _ h1]

theorem rowOkAll_of (dl : List (String × DType)) :
    ∀ r : Row, (dl.map Prod.fst).Nodup →
      (∀ cd ∈ dl, exOk (typeCell cd.2 (r cd.1)) = true) →
      rowOkAll dl r = true := by
  induction dl with
  | nil => intro r _ _; rfl
  | cons cd rest ih =>
    intro r hnodup hall
    rw [List.map_cons, List.nodup_cons] at hnodup
    rw [rowOkAll, Bool.and_eq_true]
    refine ⟨hall cd (List.mem_cons_self cd rest), ?_⟩
    apply ih _ hnodup.2
    intro ce hce
    have hne : ce.1 ≠ cd.1 := by
      intro h
      exact hnodup.1 (h ▸ List.mem_map.mpr ⟨ce, hce, rfl⟩)
    rw [updateRow_ne _ _ _ _ hne]
    exact hall ce (List.mem_cons.mpr (Or.inr hce))

theorem all_fieldNames (rec : EmpRecord) :
    ∀ fl : List FieldId,
      ((fl.map fieldName).all fun c => (recToRow rec c).isSome)
        = fl.all fun f => (rec f).isSome := by
  intro fl
  induction fl with
  | nil => rfl
  | cons f fl ih =>
    rw [List.map_cons, List.all_cons, List.all_cons, ih, recToRow_field]
    cases hrf : rec f <;> rfl

theorem dropna_rows (recs : List EmpRecord) :
    (dropnaF (dfFromRecords recs)).rows
      = (recs.filter allPresent).map recToRow := by
  cases recs with
  | nil => rfl
  | cons r0 rs =>
    show ((r0 :: rs).map recToRow).filter
        (fun r => fieldNames.all fun c => (r c).isSome)
      = ((r0 :: rs).filter allPresent).map recToRow
    rw [List.filter_map]
    congr 1
    apply List.filter_congr
    intro rec _
    show fieldNames.all (fun c => (recToRow rec c).isSome) = allPresent rec
    rw [fieldNames, all_fieldNames rec fieldList, allPresent]

theorem make_decomp (recs : List EmpRecord)
    (g : Option (List (List Char × List Char)))
    (dm : Option (List Char → Option (List Char))) :
    make_pd_dataframe recs g dm
      = match typeCols dtypeList (dropnaF (dfFromRecords recs)) with
        | .ok typed => .ok (postDm dm (postG g typed))
        | .error e => .error e := by
  rw [make_pd_dataframe]
  cases h : typeCols dtypeList (dropnaF (dfFromRecords recs)) with
  | ok typed => rfl
  | error e => rfl

theorem flatMap_singleton {α β : Type} (l : List α) (f : α → List β)
    (g : α → β) (h : ∀ a ∈ l, f a = [g a]) : l.flatMap f = l.map g := by
  induction l with
  | nil => rfl
  | cons a l ih =>
    rw [List.flatMap_cons, h a (List.mem_cons_self a l),
      ih (fun b hb => h b (List.mem_cons.mpr (Or.inr hb))), List.map_cons]
    rfl

theorem filter_key_nodup (gl : List (List Char × List Char))
    (h : (gl.map Prod.fst).Nodup) (key : Option Value) :
    gl.filter (fun p => decide (key = some (Value.vstr p.1)))
      = (gl.find? (fun p => decide (key = some (Value.vstr p.1)))).toList := by
  induction gl with
  | nil => rfl
  | cons q gl ih =>
    rw [List.map_cons, List.nodup_cons] at h
    by_cases hq : key = some (Value.vstr q.1)
    · rw [List.filter_cons_of_pos (by simp [hq]),
        List.find?_cons_of_pos _ (by simp [hq])]
      have hnil : gl.filter (fun p => decide (key = some (Value.vstr p.1)))
          = [] := by
        apply List.filter_eq_nil_iff.mpr
        intro p2 hp2
        simp only [decide_eq_true_eq]
        intro h2
        apply h.1
        have : q.1 = p2.1 := by
          have := hq.symm.trans h2
          simpa using this
        exact this ▸ List.mem_map.mpr ⟨p2, hp2, rfl⟩
      rw [hnil]
      rfl
    · rw [List.filter_cons_of_neg (by simp [hq]),
        List.find?_cons_of_neg _ (by simp [hq])]
      exact ih h.2

theorem mergeGender_rows_nodup (fr : Frame)
    (gl : List (List Char × List Char)) (h : (gl.map Prod.fst).Nodup) :
    (mergeGender fr gl).rows
      = fr.rows.map (fun r =>
          updateRow r "estimated_gender" (glookupKey gl (r "first_name"))) := by
  show fr.rows.flatMap _ = _
  apply flatMap_singleton
  intro r _
  rw [filter_key_nodup gl h (r "first_name")]
  cases hf : gl.find? (fun p => decide (r "first_name" = some (Value.vstr p.1))) with
  | none =>
    show [updateRow r "estimated_gender" none] = _
    rw [glookupKey, hf]
    rfl
  | some p =>
    show [updateRow r "estimated_gender" (some (Value.vstr p.2))] = _
    rw [glookupKey, hf]
    rfl

theorem glookupKey_map (gl : List (List Char × List Char))
    (fnOpt : Option (List Char)) :
    glookupKey gl (fnOpt.map Value.vstr)
      = (fnOpt.bind (fun fn => glookup gl fn)).map Value.vstr := by
  cases fnOpt with
  | none =>
    rw [glookupKey]
    rw [List.find?_eq_none.mpr (fun p _ => by simp)]
    rfl
  | some fn =>
    rw [glookupKey]
    have hpred : (fun p : List Char × List Char =>
        decide (((some fn).map Value.vstr : Option Value)
          = some (Value.vstr p.1)))
        = (fun p : List Char × List Char => decide (p.1 = fn)) := by
      funext p
      by_cases hp : p.1 = fn
      · rw [hp]
        simp
      · have hp2 : fn ≠ p.1 := fun he => hp he.symm
        simp [hp, hp2]
    rw [hpred]
    show (gl.find? fun p => decide (p.1 = fn)).map (fun p => Value.vstr p.2)
      = ((glookup gl fn).map Value.vstr)
    rw [glookup, Option.map_map]
    rfl

theorem addDeptClass_rows (fr : Frame) (dm : List Char → Option (List Char)) :
    (addDeptClass fr dm).rows
      = fr.rows.map (fun r => updateRow r "dept_class" (dcFinal dm r)) := by
  show (fr.rows.map _).map _ = _
  rw [List.map_map]
  apply List.map_congr_left
  intro r _
  show updateRow
      (updateRow r "dept_class"
        (match r "job_department" with
          | some (.vstr s) => (dm s).map Value.vstr
          | _ => none))
      "dept_class"
      (match (updateRow r "dept_class"
          (match r "job_department" with
            | some (.vstr s) => (dm s).map Value.vstr
            | _ => none)) "dept_class" with
        | some (.vstr s) => some (Value.vstr (pyUpper s))
        | v => v)
    = updateRow r "dept_class" (dcFinal dm r)
  rw [updateRow_eq, updateRow_override, dcFinal]
  cases hjd : r "job_department" with
  | none => rfl
  | some v =>
    cases v with
    | vstr s =>
      show updateRow r "dept_class"
          (match (dm s).map Value.vstr with
            | some (.vstr s2) => some (Value.vstr (pyUpper s2))
            | v => v)
        = updateRow r "dept_class"
            ((dm s).map (fun v => Value.vstr (pyUpper v)))
      cases hdm : dm s with
      | none => rfl
      | some d => rfl
    | vnum q => rfl
    | vdate d => rfl

theorem pySplitF_no_sep (sep : List Char) :
    ∀ (fuel : Nat) (s : List Char), ¬ sep <:+: s →
      pySplitF sep fuel s = [s] := by
  intro fuel
  induction fuel with
  | zero =>
    intro s h
    cases s with
    | nil => rfl
    | cons c cs => rfl
  | succ fuel ih =>
    intro s h
    cases s with
    | nil => rfl
    | cons c cs =>
      rw [pySplitF]
      have hp : ¬ sep.isPrefixOf (c :: cs) = true := by
        intro h2
        exact h (List.isPrefixOf_iff_prefix.mp h2).isInfix
      rw [if_neg hp, ih cs (fun h2 => h (List.infix_cons h2))]

theorem deriveFirstName_no_sep (nm : List Char)
    (h : ¬ (", ".toList <:+: nm)) : deriveFirstName nm = none := by
  rw [deriveFirstName, pySplit, pySplitF_no_sep _ _ nm h]
  rfl

theorem postG_rows (g : Option (List (List Char × List Char)))
    (typed : Frame) (hg : gOk g) :
    (postG g typed).rows = typed.rows.map (postRowG g) := by
  cases g with
  | none =>
    show typed.rows = typed.rows.map (postRowG none)
    rw [show (postRowG none) = (fun r : Row => r) from rfl, List.map_id']
  | some gl =>
    show (dropColF (mergeGender (addFirstNameCol typed) gl) "first_name").rows
      = _
    rw [show (dropColF (mergeGender (addFirstNameCol typed) gl)
          "first_name").rows
        = (mergeGender (addFirstNameCol typed) gl).rows.map
            (fun r => updateRow r "first_name" none) from rfl]
    rw [mergeGender_rows_nodup _ gl hg]
    rw [show (addFirstNameCol typed).rows
        = typed.rows.map (fun r => updateRow r "first_name" (fnVal r)) from rfl]
    rw [List.map_map, List.map_map]
    apply List.map_congr_left
    intro r0 _
    show updateRow (updateRow (updateRow r0 "first_name" (fnVal r0))
        "estimated_gender"
        (glookupKey gl ((updateRow r0 "first_name" (fnVal r0)) "first_name")))
        "first_name" none
      = postRowG (some gl) r0
    rw [updateRow_eq]
    rfl

theorem postDm_rows (dm : Option (List Char → Option (List Char)))
    (fr : Frame) :
    (postDm dm fr).rows = fr.rows.map (postRowDm dm) := by
  cases dm with
  | none =>
    show fr.rows = fr.rows.map (postRowDm none)
    rw [show (postRowDm none) = (fun r : Row => r) from rfl, List.map_id']
  | some m =>
    show (addDeptClass fr m).rows = _
    rw [addDeptClass_rows]
    rfl

theorem make_rows_ok (recs : List EmpRecord)
    (g : Option (List (List Char × List Char)))
    (dm : Option (List Char → Option (List Char))) (typed : Frame)
    (htyped : typeCols dtypeList (dropnaF (dfFromRecords recs)) = .ok typed)
    (hg : gOk g) :
    rowsOfE (make_pd_dataframe recs g dm)
      = (recs.filter allPresent).map (fun rec =>
          postRowDm dm (postRowG g (rowTypeAll dtypeList (recToRow rec)))) := by
  rw [make_decomp recs g dm, htyped]
  show (postDm dm (postG g typed)).rows = _
  rw [postDm_rows, postG_rows g typed hg]
  obtain ⟨hcols, hrows, _⟩ := typeCols_ok dtypeList _ typed htyped
  rw [hrows, dropna_rows recs, List.map_map, List.map_map, List.map_map]
  rfl

theorem typed_cols_eq (recs : List EmpRecord) (typed : Frame)
    (htyped : typeCols dtypeList (dropnaF (dfFromRecords recs)) = .ok typed) :
    typed.cols = fieldNames := by
  obtain ⟨hcols, _, hmem⟩ := typeCols_ok dtypeList _ typed htyped
  have hname : "name" ∈ (dropnaF (dfFromRecords recs)).cols :=
    hmem ("name", DType.dstr) (by decide)
  cases recs with
  | nil => exact absurd hname (by decide)
  | cons r rs => rw [hcols]; rfl

/-- C4.  A record with one or more absent fields among the thirteen is
excluded by dropna and every all-present record is retained, in order:
whenever make_pd_dataframe returns a table, its rows correspond exactly
(by count and by name cell) to the all-present records. -/
theorem dropna_row_selection :
    ∀ (recs : List EmpRecord) (dm : Option (List Char → Option (List Char))),
      exOk (make_pd_dataframe recs none dm) = true →
      (rowsOfE (make_pd_dataframe recs none dm)).length
          = (recs.filter allPresent).length
      ∧ (rowsOfE (make_pd_dataframe recs none dm)).map (fun r => r "name")
          = (recs.filter allPresent).map
              (fun rec => (rec FieldId.name).map Value.vstr) := by
  intro recs dm hok
  obtain ⟨df, hdf⟩ := exOk_ok hok
  rw [make_decomp recs none dm] at hdf
  cases htyped : typeCols dtypeList (dropnaF (dfFromRecords recs)) with
  | error e => rw [htyped] at hdf; simp at hdf
  | ok typed =>
    have hrows := make_rows_ok recs none dm typed htyped trivial
    rw [hrows]
    refine ⟨by rw [List.length_map], ?_⟩
    rw [List.map_map]
    apply List.map_congr_left
    intro rec hrec
    show (postRowDm dm (postRowG none
        (rowTypeAll dtypeList (recToRow rec)))) "name"
      = (rec FieldId.name).map Value.vstr
    have h2 : ∀ r : Row, (postRowDm dm r) "name" = r "name" := by
      intro r
      cases dm with
      | none => rfl
      | some m => exact updateRow_ne _ _ _ _ (by decide)
    rw [show postRowG none (rowTypeAll dtypeList (recToRow rec))
        = rowTypeAll dtypeList (recToRow rec) from rfl, h2]
    rw [rowTypeAll_at dtypeList _ "name" DType.dstr (by decide) (by decide),
      typeCellD_dstr]
    exact recToRow_field rec FieldId.name

/-- C4 witness: of a complete record and a record missing job_rank, only
the complete one survives into the table, and the absent field raises no
error. -/
theorem dropna_row_selection_witness :
    ((rowsOfE (make_pd_dataframe [recFull, recMissing] none none)).length
        = ([recFull, recMissing].filter allPresent).length
      ∧ (rowsOfE (make_pd_dataframe [recFull, recMissing] none none)).map
          (fun r => r "name")
        = ([recFull, recMissing].filter allPresent).map
            (fun rec => (rec FieldId.name).map Value.vstr))
    ∧ (rowsOfE (make_pd_dataframe [recFull, recMissing] none none)).length
        = 1 :=
  ⟨dropna_row_selection [recFull, recMissing] none (by decide), by decide⟩

theorem exOk_typeCell_dstr (x : Option Value) :
    exOk (typeCell DType.dstr x) = true := by
  rw [typeCell_dstr]
  rfl

theorem exOk_typeCell_ddate (x : Option Value) :
    exOk (typeCell DType.ddate x) = true := by
  match x with
  | none => rfl
  | some (.vstr s) => rfl
  | some (.vnum q) => rfl
  | some (.vdate d) => rfl

theorem exOk_typeCell_dfloat (s : List Char)
    (h : (pyFloat s).isSome = true) :
    exOk (typeCell DType.dfloat (some (.vstr s))) = true := by
  obtain ⟨q, hq⟩ := Option.isSome_iff_exists.mp h
  show exOk (match pyFloat s with
    | some q2 => (Except.ok (some (Value.vnum q2)) : Except String (Option Value))
    | none => Except.error "could not convert string to float") = true
  rw [hq]
  rfl

theorem every_field_mem (f : FieldId) : f ∈ fieldList := by
  cases f <;> decide

/-- C5.  Date typing: "15-Jan-2020" parses to the calendar date
2020-01-15 and "not-a-date" parses to an absent value; a record whose
thirteen fields are present and whose numeric fields parse always
produces exactly one (non-dropped) row, in which each of the five date
columns holds the parse result of its text, absent when unparsable,
without any error. -/
theorem date_coercion :
    parseDate "15-Jan-2020".toList = some ⟨2020, 1, 15⟩
    ∧ parseDate "not-a-date".toList = none
    ∧ (∀ rec : EmpRecord, allPresent rec = true →
        (∀ s, rec FieldId.annual_salary = some s → (pyFloat s).isSome = true) →
        (∀ s, rec FieldId.appt_percent = some s → (pyFloat s).isSome = true) →
        exOk (make_pd_dataframe [rec] none none) = true
        ∧ (rowsOfE (make_pd_dataframe [rec] none none)).length = 1
        ∧ (∀ row ∈ rowsOfE (make_pd_dataframe [rec] none none),
            ∀ f ∈ dateFields,
              row (fieldName f)
                = ((rec f).bind (fun s => parseDate s)).map Value.vdate)) := by
  refine ⟨by decide, by decide, ?_⟩
  intro rec hall hsal hpct
  have hsome : ∀ f : FieldId, (rec f).isSome = true := by
    intro f
    rw [allPresent, List.all_eq_true] at hall
    exact hall f (every_field_mem f)
  have hcell : ∀ cd ∈ dtypeList,
      exOk (typeCell cd.2 (recToRow rec cd.1)) = true := by
    intro cd hcd
    have hv : ∀ f : FieldId, recToRow rec (fieldName f)
        = (rec f).map Value.vstr := recToRow_field rec
    fin_cases hcd
    · exact exOk_typeCell_dstr _
    · exact exOk_typeCell_dstr _
    · exact exOk_typeCell_dstr _
    · exact exOk_typeCell_dstr _
    · exact exOk_typeCell_dstr _
    · exact exOk_typeCell_dstr _
    · obtain ⟨s, hs⟩ := Option.isSome_iff_exists.mp
        (hsome FieldId.annual_salary)
      have : recToRow rec "annual_salary" = some (Value.vstr s) := by
        show recToRow rec (fieldName FieldId.annual_salary)
          = some (Value.vstr s)
        rw [hv FieldId.annual_salary, hs]
        rfl
      rw [show (("annual_salary", DType.dfloat) : String × DType).2
          = DType.dfloat from rfl]
      show exOk (typeCell DType.dfloat (recToRow rec "annual_salary")) = true
      rw [this]
      exact exOk_typeCell_dfloat s (hsal s hs)
    · exact exOk_typeCell_ddate _
    · exact exOk_typeCell_ddate _
    · exact exOk_typeCell_ddate _
    · exact exOk_typeCell_ddate _
    · exact exOk_typeCell_ddate _
    · obtain ⟨s, hs⟩ := Option.isSome_iff_exists.mp
        (hsome FieldId.appt_percent)
      have : recToRow rec "appt_percent" = some (Value.vstr s) := by
        show recToRow rec (fieldName FieldId.appt_percent)
          = some (Value.vstr s)
        rw [hv FieldId.appt_percent, hs]
        rfl
      show exOk (typeCell DType.dfloat (recToRow rec "appt_percent")) = true
      rw [this]
      exact exOk_typeCell_dfloat s (hpct s hs)
  have hbase : (dropnaF (dfFromRecords [rec])).rows = [recToRow rec] := by
    rw [dropna_rows [rec]]
    rw [List.filter_cons]
    simp [hall]
  have htyped := typeCols_of_ok dtypeList (dropnaF (dfFromRecords [rec]))
    (by
      show ∀ cd ∈ dtypeList, cd.1 ∈ fieldNames
      decide)
    (by
      intro r hr
      rw [hbase] at hr
      simp only [List.mem_singleton] at hr
      subst hr
      exact rowOkAll_of dtypeList _ (by decide) hcell)
  refine ⟨?_, ?_, ?_⟩
  · rw [make_decomp, htyped]
    rfl
  · rw [make_rows_ok [rec] none none _ htyped trivial, List.filter_cons]
    simp [hall]
  · intro row hrow f hf
    rw [make_rows_ok [rec] none none _ htyped trivial, List.filter_cons] at hrow
    simp only [hall, if_true, List.filter_nil, List.map_cons, List.map_nil,
      List.mem_singleton] at hrow
    subst hrow
    show (rowTypeAll dtypeList (recToRow rec)) (fieldName f)
      = ((rec f).bind (fun s => parseDate s)).map Value.vdate
    have hdate : (fieldName f, DType.ddate) ∈ dtypeList →
        rowTypeAll dtypeList (recToRow rec) (fieldName f)
          = ((rec f).bind (fun s => parseDate s)).map Value.vdate := by
      intro hm
      rw [rowTypeAll_at dtypeList _ (fieldName f) DType.ddate hm (by decide)]
      obtain ⟨s, hs⟩ := Option.isSome_iff_exists.mp (hsome f)
      rw [recToRow_field rec f, hs]
      rfl
    fin_cases hf
    · exact hdate (by decide)
    · exact hdate (by decide)
    · exact hdate (by decide)
    · exact hdate (by decide)
    · exact hdate (by decide)

/-- C5 witness: a concrete record with an unparsable appt_end_date keeps
its row, with the bad date absent and the good date parsed. -/
theorem date_coercion_witness :
    (exOk (make_pd_dataframe [recBadDate] none none) = true
      ∧ (rowsOfE (make_pd_dataframe [recBadDate] none none)).length = 1
      ∧ (∀ row ∈ rowsOfE (make_pd_dataframe [recBadDate] none none),
          ∀ f ∈ dateFields,
            row (fieldName f)
              = ((recBadDate f).bind (fun s => parseDate s)).map Value.vdate))
    ∧ (rowsOfE (make_pd_dataframe [recBadDate] none none)).map
        (fun r => (r "appt_end_date", r "first_hired_date"))
      = [(none, some (.vdate ⟨2020, 1, 15⟩))] :=
  ⟨date_coercion.2.2 recBadDate (by decide)
      (fun s hs => by rw [show recBadDate FieldId.annual_salary
          = some "100000".toList from rfl] at hs; cases hs; decide)
      (fun s hs => by rw [show recBadDate FieldId.appt_percent
          = some "100".toList from rfl] at hs; cases hs; decide),
   by decide⟩

/-- C6 (amended).  With a gender lookup supplied (a mapping: distinct
first-name keys), every output row's estimated_gender is the lookup of
the derived first name of its name cell, where the derived first name is
element 1 of the name split on every ", " occurrence truncated at the
first space (so "Doe, Jane Q" still derives "Jane"); a name with no ", "
derives no first name, giving a null gender without any error. -/
theorem gender_enrichment :
    deriveFirstName "Doe, Jane Q".toList = some "Jane".toList
    ∧ (∀ (recs : List EmpRecord) (gl : List (List Char × List Char))
         (dm : Option (List Char → Option (List Char))),
        (gl.map Prod.fst).Nodup →
        ∀ row ∈ rowsOfE (make_pd_dataframe recs (some gl) dm),
          ∃ nm, row "name" = some (Value.vstr nm)
            ∧ row "estimated_gender"
              = ((deriveFirstName nm).bind (fun fn => glookup gl fn)).map
                  Value.vstr)
    ∧ (∀ nm : List Char, ¬ (", ".toList <:+: nm) →
        deriveFirstName nm = none) := by
  refine ⟨by decide, ?_, deriveFirstName_no_sep⟩
  intro recs gl dm hnodup row hrow
  cases htyped : typeCols dtypeList (dropnaF (dfFromRecords recs)) with
  | error e =>
    rw [make_decomp recs (some gl) dm, htyped] at hrow
    exact absurd hrow (List.not_mem_nil row)
  | ok typed =>
    rw [make_rows_ok recs (some gl) dm typed htyped hnodup] at hrow
    obtain ⟨rec, hrec, rfl⟩ := List.mem_map.mp hrow
    have hallp : allPresent rec = true := List.of_mem_filter hrec
    rw [allPresent, List.all_eq_true] at hallp
    obtain ⟨nm, hnm⟩ : ∃ nm, rec FieldId.name = some nm :=
      Option.isSome_iff_exists.mp (hallp _ (every_field_mem FieldId.name))
    have hr0name : rowTypeAll dtypeList (recToRow rec) "name"
        = some (Value.vstr nm) := by
      rw [rowTypeAll_at dtypeList _ "name" DType.dstr (by decide) (by decide),
        typeCellD_dstr]
      show recToRow rec (fieldName FieldId.name) = some (Value.vstr nm)
      rw [recToRow_field rec FieldId.name, hnm]
      rfl
    have hdm : ∀ (r : Row) (c : String), c ≠ "dept_class" →
        (postRowDm dm r) c = r c := by
      intro r c hc
      cases dm with
      | none => rfl
      | some m => exact updateRow_ne _ _ _ _ hc
    have hpg : ∀ (r : Row) (c : String), c ≠ "first_name" →
        c ≠ "estimated_gender" → (postRowG (some gl) r) c = r c := by
      intro r c h1 h2
      show (updateRow (updateRow (updateRow r "first_name" (fnVal r))
          "estimated_gender" (glookupKey gl (fnVal r))) "first_name" none) c
        = r c
      rw [updateRow_ne _ _ _ _ h1, updateRow_ne _ _ _ _ h2,
        updateRow_ne _ _ _ _ h1]
    refine ⟨nm, ?_, ?_⟩
    · rw [hdm _ _ (by decide), hpg _ _ (by decide) (by decide), hr0name]
    · rw [hdm _ _ (by decide)]
      have heg : (postRowG (some gl) (rowTypeAll dtypeList (recToRow rec)))
          "estimated_gender"
          = glookupKey gl (fnVal (rowTypeAll dtypeList (recToRow rec))) := by
        show (updateRow (updateRow (updateRow _ "first_name" _)
            "estimated_gender" _) "first_name" none) "estimated_gender" = _
        rw [updateRow_ne _ _ _ _ (by decide), updateRow_eq]
      rw [heg]
      have hfn : fnVal (rowTypeAll dtypeList (recToRow rec))
          = (deriveFirstName nm).map Value.vstr := by
        rw [fnVal, hr0name]
      rw [hfn, glookupKey_map]

/-- C6 witness: with the mapping sending "Jane" to "F", the single row
for the record named "Doe, Jane Q" satisfies the derivation property, and
its estimated_gender is "F". -/
theorem gender_enrichment_witness :
    (∀ row ∈ rowsOfE (make_pd_dataframe [recFull]
        (some [("Jane".toList, "F".toList)]) none),
      ∃ nm, row "name" = some (Value.vstr nm)
        ∧ row "estimated_gender"
          = ((deriveFirstName nm).bind
              (fun fn => glookup [("Jane".toList, "F".toList)] fn)).map
                Value.vstr)
    ∧ (rowsOfE (make_pd_dataframe [recFull]
        (some [("Jane".toList, "F".toList)]) none)).map
        (fun r => r "estimated_gender")
      = [some (Value.vstr "F".toList)] :=
  ⟨fun row hrow => gender_enrichment.2.1 [recFull]
      [("Jane".toList, "F".toList)] none (by simp) row hrow,
   by decide⟩

/-- C6 counterexample: for the name "Last, A, B" (two ", " separators)
the code derives first name "A" and finds gender "F" in the lookup
containing only the key "A"; the claim's derivation (first
whitespace-delimited token of the text after the FIRST ", ") gives "A,",
which is not a key of the lookup, so the claim predicts a null gender. -/
theorem gender_enrichment_cex :
    (rowsOfE (make_pd_dataframe [recTwoCommas]
        (some [("A".toList, "F".toList)]) none)).map
        (fun r => r "estimated_gender")
      = [some (Value.vstr "F".toList)]
    ∧ claimFirstName "Last, A, B".toList = some "A,".toList
    ∧ glookup [("A".toList, "F".toList)] "A,".toList = none := by
  exact ⟨by decide, by decide, by decide⟩

/-- C9.  With a DeptClassLookup supplied, every output row's dept_class
is the upper-cased lookup of its job_department code taken verbatim, and
is absent when the lookup has no entry for the code; "stem" upper-cases
to "STEM". -/
theorem dept_class_enrichment :
    pyUpper "stem".toList = "STEM".toList
    ∧ (∀ (recs : List EmpRecord)
         (g : Option (List (List Char × List Char)))
         (dm : List Char → Option (List Char)), gOk g →
        ∀ row ∈ rowsOfE (make_pd_dataframe recs g (some dm)),
          ∃ jd, row "job_department" = some (Value.vstr jd)
            ∧ row "dept_class"
              = (dm jd).map (fun v => Value.vstr (pyUpper v))) := by
  refine ⟨by decide, ?_⟩
  intro recs g dm hg row hrow
  cases htyped : typeCols dtypeList (dropnaF (dfFromRecords recs)) with
  | error e =>
    rw [make_decomp recs g (some dm), htyped] at hrow
    exact absurd hrow (List.not_mem_nil row)
  | ok typed =>
    rw [make_rows_ok recs g (some dm) typed htyped hg] at hrow
    obtain ⟨rec, hrec, rfl⟩ := List.mem_map.mp hrow
    have hallp : allPresent rec = true := List.of_mem_filter hrec
    rw [allPresent, List.all_eq_true] at hallp
    obtain ⟨jd, hjd⟩ : ∃ jd, rec FieldId.job_department = some jd :=
      Option.isSome_iff_exists.mp
        (hallp _ (every_field_mem FieldId.job_department))
    have hr0jd : rowTypeAll dtypeList (recToRow rec) "job_department"
        = some (Value.vstr jd) := by
      rw [rowTypeAll_at dtypeList _ "job_department" DType.dstr (by decide)
        (by decide), typeCellD_dstr]
      show recToRow rec (fieldName FieldId.job_department)
        = some (Value.vstr jd)
      rw [recToRow_field rec FieldId.job_department, hjd]
      rfl
    have hpg : ∀ (r : Row) (c : String), c ≠ "first_name" →
        c ≠ "estimated_gender" → (postRowG g r) c = r c := by
      intro r c h1 h2
      cases g with
      | none => rfl
      | some gl =>
        show (updateRow (updateRow (updateRow r "first_name" (fnVal r))
            "estimated_gender" (glookupKey gl (fnVal r))) "first_name" none) c
          = r c
        rw [updateRow_ne _ _ _ _ h1, updateRow_ne _ _ _ _ h2,
          updateRow_ne _ _ _ _ h1]
    have hr1jd : (postRowG g (rowTypeAll dtypeList (recToRow rec)))
        "job_department" = some (Value.vstr jd) := by
      rw [hpg _ _ (by decide) (by decide), hr0jd]
    refine ⟨jd, ?_, ?_⟩
    · show (updateRow _ "dept_class" _) "job_department" = _
      rw [updateRow_ne _ _ _ _ (by decide), hr1jd]
    · show (updateRow _ "dept_class"
          (dcFinal dm (postRowG g (rowTypeAll dtypeList (recToRow rec)))))
          "dept_class" = _
      rw [updateRow_eq, dcFinal, hr1jd]

/-- C9 witness: the job_department code "BIOL" with the lookup sending
"BIOL" to "stem" yields dept_class "STEM". -/
theorem dept_class_enrichment_witness :
    (∀ row ∈ rowsOfE (make_pd_dataframe [recFull] none
        (some (fun s => if s = "BIOL".toList then some "stem".toList
          else none))),
      ∃ jd, row "job_department" = some (Value.vstr jd)
        ∧ row "dept_class"
          = ((fun s => if s = "BIOL".toList then some "stem".toList
              else none) jd).map (fun v => Value.vstr (pyUpper v)))
    ∧ (rowsOfE (make_pd_dataframe [recFull] none
        (some (fun s => if s = "BIOL".toList then some "stem".toList
          else none)))).map (fun r => r "dept_class")
      = [some (Value.vstr "STEM".toList)] :=
  ⟨fun row hrow => dept_class_enrichment.2 [recFull] none
      (fun s => if s = "BIOL".toList then some "stem".toList else none)
      trivial row hrow,
   by decide⟩

theorem setCol_cols (fr : Frame) (c : String) (f : Row → Option Value) :
    (setCol fr c f).cols
      = if c ∈ fr.cols then fr.cols else fr.cols ++ [c] := rfl

theorem addDeptClass_cols (fr : Frame) (m : List Char → Option (List Char))
    (h : "dept_class" ∉ fr.cols) :
    (addDeptClass fr m).cols = fr.cols ++ ["dept_class"] := by
  show (setCol (setCol fr "dept_class" _) "dept_class" _).cols = _
  rw [setCol_cols, setCol_cols, if_neg h,
    if_pos (List.mem_append.mpr (Or.inr (by decide)))]

theorem postG_cols (g : Option (List (List Char × List Char)))
    (typed : Frame) (htc : typed.cols = fieldNames) :
    (postG g typed).cols = fieldNames ++ gCols g := by
  cases g with
  | none =>
    show typed.cols = fieldNames ++ []
    rw [htc, List.append_nil]
  | some gl =>
    have h1 : (addFirstNameCol typed).cols = fieldNames ++ ["first_name"] := by
      show (setCol typed "first_name" _).cols = _
      rw [setCol_cols, htc, if_neg (by decide)]
    have h2 : (mergeGender (addFirstNameCol typed) gl).cols
        = (fieldNames ++ ["first_name"]) ++ ["estimated_gender"] := by
      show (addFirstNameCol typed).cols ++ ["estimated_gender"] = _
      rw [h1]
    show (mergeGender (addFirstNameCol typed) gl).cols.filter
        (fun x => x ≠ "first_name") = _
    rw [h2]
    rw [(by decide : ((fieldNames ++ ["first_name"])
        ++ ["estimated_gender"]).filter (fun x => x ≠ "first_name")
      = fieldNames ++ ["estimated_gender"])]
    rfl

/-- C10.  Enrichment only appends columns: whenever make_pd_dataframe
with lookups returns a table, the lookup-free run also succeeds; the
columns are the thirteen fields in definition order followed by
estimated_gender (when a gender lookup is given) and then dept_class
(when a dept lookup is given); the transient first_name column never
appears; and the values of the thirteen base columns are identical, row
by row, to those of the lookup-free run. -/
theorem enrichment_frame_effect :
    ∀ (recs : List EmpRecord) (g : Option (List (List Char × List Char)))
      (dm : Option (List Char → Option (List Char))), gOk g →
      exOk (make_pd_dataframe recs g dm) = true →
      exOk (make_pd_dataframe recs none none) = true
      ∧ colsOfE (make_pd_dataframe recs g dm)
          = fieldNames ++ gCols g ++ dmCols dm
      ∧ "first_name" ∉ colsOfE (make_pd_dataframe recs g dm)
      ∧ (rowsOfE (make_pd_dataframe recs g dm)).map
          (fun r => fieldNames.map r)
        = (rowsOfE (make_pd_dataframe recs none none)).map
            (fun r => fieldNames.map r) := by
  intro recs g dm hg hok
  obtain ⟨df, hdf⟩ := exOk_ok hok
  rw [make_decomp recs g dm] at hdf
  cases htyped : typeCols dtypeList (dropnaF (dfFromRecords recs)) with
  | error e => rw [htyped] at hdf; simp at hdf
  | ok typed =>
    have htc := typed_cols_eq recs typed htyped
    have hcols : colsOfE (make_pd_dataframe recs g dm)
        = fieldNames ++ gCols g ++ dmCols dm := by
      rw [make_decomp recs g dm, htyped]
      show (postDm dm (postG g typed)).cols = _
      cases dm with
      | none =>
        show (postG g typed).cols = fieldNames ++ gCols g ++ []
        rw [postG_cols g typed htc, List.append_nil]
      | some m =>
        show (addDeptClass (postG g typed) m).cols
          = fieldNames ++ gCols g ++ ["dept_class"]
        rw [addDeptClass_cols _ m (by
            rw [postG_cols g typed htc]
            cases g with
            | none => decide
            | some gl =>
              show "dept_class" ∉ fieldNames ++ ["estimated_gender"]
              decide),
          postG_cols g typed htc]
    refine ⟨?_, hcols, ?_, ?_⟩
    · rw [make_decomp recs none none, htyped]
      rfl
    · rw [hcols]
      cases g with
      | none =>
        cases dm with
        | none => decide
        | some m =>
          show "first_name" ∉ fieldNames ++ [] ++ ["dept_class"]
          decide
      | some gl =>
        cases dm with
        | none =>
          show "first_name" ∉ fieldNames ++ ["estimated_gender"] ++ []
          decide
        | some m =>
          show "first_name" ∉ fieldNames ++ ["estimated_gender"]
            ++ ["dept_class"]
          decide
    · rw [make_rows_ok recs g dm typed htyped hg,
        make_rows_ok recs none none typed htyped trivial,
        List.map_map, List.map_map]
      apply List.map_congr_left
      intro rec _
      show fieldNames.map
          (postRowDm dm (postRowG g (rowTypeAll dtypeList (recToRow rec))))
        = fieldNames.map
            (postRowDm none
              (postRowG none (rowTypeAll dtypeList (recToRow rec))))
      apply List.map_congr_left
      intro c hc
      have hcne : c ≠ "first_name" ∧ c ≠ "estimated_gender"
          ∧ c ≠ "dept_class" := by
        revert hc
        revert c
        decide
      have hdmc : ∀ r : Row, (postRowDm dm r) c = r c := by
        intro r
        cases dm with
        | none => rfl
        | some m => exact updateRow_ne _ _ _ _ hcne.2.2
      have hpgc : ∀ r : Row, (postRowG g r) c = r c := by
        intro r
        cases g with
        | none => rfl
        | some gl =>
          show (updateRow (updateRow (updateRow r "first_name" (fnVal r))
              "estimated_gender" (glookupKey gl (fnVal r))) "first_name"
              none) c = r c
          rw [updateRow_ne _ _ _ _ hcne.1, updateRow_ne _ _ _ _ hcne.2.1,
            updateRow_ne _ _ _ _ hcne.1]
      rw [hdmc, hpgc]
      rfl

/-- C10 witness: with both lookups supplied on a concrete record, the
columns are the thirteen fields plus the two enrichment columns, the
first_name helper is gone, and the base cells match the lookup-free
run. -/
theorem enrichment_frame_effect_witness :
    exOk (make_pd_dataframe [recFull] none none) = true
    ∧ colsOfE (make_pd_dataframe [recFull]
        (some [("Jane".toList, "F".toList)])
        (some (fun s => if s = "BIOL".toList then some "stem".toList
          else none)))
      = fieldNames ++ gCols (some [("Jane".toList, "F".toList)])
        ++ dmCols (some (fun s => if s = "BIOL".toList
            then some "stem".toList else none))
    ∧ "first_name" ∉ colsOfE (make_pd_dataframe [recFull]
        (some [("Jane".toList, "F".toList)])
        (some (fun s => if s = "BIOL".toList then some "stem".toList
          else none)))
    ∧ (rowsOfE (make_pd_dataframe [recFull]
        (some [("Jane".toList, "F".toList)])
        (some (fun s => if s = "BIOL".toList then some "stem".toList
          else none)))).map (fun r => fieldNames.map r)
      = (rowsOfE (make_pd_dataframe [recFull] none none)).map
          (fun r => fieldNames.map r) :=
  enrichment_frame_effect [recFull] (some [("Jane".toList, "F".toList)])
    (some (fun s => if s = "BIOL".toList then some "stem".toList else none))
    (by
      show ([("Jane".toList, "F".toList)].map Prod.fst).Nodup
      decide)
    (by decide)
